import Mathlib

/-!
Verification of the gocnab positional CNAB codec (encoding/decoding of
fixed-width, column-positioned bank records).

The Go source (`gocnab.go`) is shallowly embedded here:

* Go byte slices / strings are `List Char`, one `Char` per byte (CNAB content
  is ASCII; on the ASCII range Go's `strings.ToUpper`, `strings.TrimSpace`
  and `unicode.IsSpace` agree with the character-level models below).
* `float64` values are modelled as exact rationals `ℚ`.  The specification's
  claims about decimal fields are restricted to values with exactly two
  fractional digits; on that fragment `fmt.Sprintf("%.2f", x)` and
  `strconv.ParseFloat` are exact, which is what the models below compute.
  Binary floating-point rounding on other values is outside this model.
* fallible operations return `Except CNABError _` / `Option _`.
* reflection is replaced by explicit data: a struct is a list of fields, each
  carrying its name, its raw `cnab:"..."` tag and its typed value.
-/

namespace Gocnab

/-- Go byte strings, one `Char` per byte. -/
abbrev Bytes := List Char

/-- Model of `strings.ToUpper` on the ASCII range (Go agrees with
`Char.toUpper` byte-for-byte on ASCII input). -/
def toUpperStr (s : Bytes) : Bytes := s.map Char.toUpper

/-- Model of `unicode.IsSpace` on the ASCII range: the six whitespace bytes
that `strings.TrimSpace` strips. -/
def goIsSpace (c : Char) : Bool :=
  c = ' ' || c = '\t' || c = '\n' || c = '\x0b' || c = '\x0c' || c = '\r'

/-- Right half of `strings.TrimSpace`: drop trailing whitespace. -/
def trimRightSpace (s : Bytes) : Bytes := (s.reverse.dropWhile goIsSpace).reverse

/-- Model of `strings.TrimSpace`: drop leading and trailing whitespace. -/
def trimSpace (s : Bytes) : Bytes := (trimRightSpace s).dropWhile goIsSpace

/-- Decimal digit characters. -/
def digitChars : Bytes := ['0', '1', '2', '3', '4', '5', '6', '7', '8', '9']

/-- LineBreak constant: the CR LF pair placed between registry entries. -/
def lineBreak : Bytes := ['\r', '\n']

/-- FinalControlCharacter constant: the single 0x1A byte ending a file. -/
def finalControlCharacter : Bytes := ['\x1a']

/-- Character for a decimal digit (`'9'` past index nine; only applied to
values below ten). -/
def digitCh (d : Nat) : Char := digitChars.getD d '9'

/-- Numeric value of a decimal digit character, `none` for any other byte
(the per-character test of Go's `strconv` digit loops). -/
def digitVal (c : Char) : Option Nat :=
  if '0' ≤ c ∧ c ≤ '9' then some (c.toNat - '0'.toNat) else none

/-- Decimal digit string of a natural number, most significant digit first,
with explicit fuel so that the kernel can evaluate it (`fuel > n` suffices). -/
def natToDigitsAux : Nat → Nat → Bytes
  | 0, _ => []
  | fuel + 1, n =>
    if n < 10 then [digitCh n]
    else natToDigitsAux fuel (n / 10) ++ [digitCh (n % 10)]

/-- Decimal digit string of a natural number (what `%d` prints for it). -/
def natToDigits (n : Nat) : Bytes := natToDigitsAux (n + 1) n

/-- Left padding with `'0'` to a minimum width: the effect of the `0` flag in
a `fmt` verb such as `%010d` or `%010s` (Go pads strings with zeros too when
the flag is set). -/
def zeroPadLeft (width : Nat) (s : Bytes) : Bytes :=
  List.replicate (width - s.length) '0' ++ s

/-- Model of `fmt.Sprintf("%0" + width + "d", v)` for a signed integer: the
sign (for negatives) comes first and the zero padding after it, the total
width counting the sign. -/
def goFormatInt0 (width : Nat) (v : Int) : Bytes :=
  if v < 0 then '-' :: zeroPadLeft (width - 1) (natToDigits (-v).toNat)
  else zeroPadLeft width (natToDigits v.toNat)

/-- Two-digit decimal rendering of a value below one hundred. -/
def twoDigits (m : Nat) : Bytes := [digitCh (m / 10), digitCh (m % 10)]

/-- Model of `fmt.Sprintf("%0" + width + ".2f", x)`: the value printed with
exactly two fractional digits and zero-padded on the left to the total
width.  The rational is scaled to hundredths and rounded; on values that are
exact multiples of 0.01 (the regime of the specification's decimal claims)
this matches Go exactly. -/
def goFormatFloat0 (width : Nat) (q : ℚ) : Bytes :=
  let cents : Int := round (q * 100)
  if cents < 0 then
    '-' :: zeroPadLeft (width - 1)
      (natToDigits ((-cents).toNat / 100) ++ '.' :: twoDigits ((-cents).toNat % 100))
  else
    zeroPadLeft width (natToDigits (cents.toNat / 100) ++ '.' :: twoDigits (cents.toNat % 100))

/-- Model of `strings.Replace(s, ".", "", -1)`. -/
def removeDot (s : Bytes) : Bytes := s.filter (· ≠ '.')

/-- Digit-scanning loop of `strconv`: consumes leading decimal digits,
returning the accumulated value, the count of digits consumed and the rest of
the input. -/
def takeDigitsAcc : Bytes → Nat → Nat → Nat × Nat × Bytes
  | [], acc, cnt => (acc, cnt, [])
  | c :: cs, acc, cnt =>
    match digitVal c with
    | some d => takeDigitsAcc cs (acc * 10 + d) (cnt + 1)
    | none => (acc, cnt, c :: cs)

/-- Value of an all-digit, non-empty string; `none` if the string is empty or
contains a non-digit (the unsigned digit loop shared by Go's `strconv`
parsers, before any range check). -/
def parseDigits (s : Bytes) : Option Nat :=
  match takeDigitsAcc s 0 0 with
  | (v, cnt, rest) => if rest = [] ∧ 0 < cnt then some v else none

/-- Model of `strconv.ParseUint(s, 10, 64)`: no sign is accepted and the
value must fit in 64 bits (the bound is 2^64, written as a numeral). -/
def goParseUint64 (s : Bytes) : Option Nat :=
  (parseDigits s).bind fun n => if n < 18446744073709551616 then some n else none

/-- Model of `strconv.ParseInt(s, 10, 64)` (also `strconv.Atoi` on a 64-bit
platform): an optional sign followed by digits, the value checked against
the int64 range (the bound is 2^63, written as a numeral). -/
def goParseInt64 (s : Bytes) : Option Int :=
  if s.head? = some '-' then
    (parseDigits (s.drop 1)).bind fun n =>
      if (n : Int) ≤ 9223372036854775808 then some (-(n : Int)) else none
  else if s.head? = some '+' then
    (parseDigits (s.drop 1)).bind fun n =>
      if (n : Int) < 9223372036854775808 then some (n : Int) else none
  else
    (parseDigits s).bind fun n =>
      if (n : Int) < 9223372036854775808 then some (n : Int) else none

/-- Unsigned part of the `strconv.ParseFloat` model: plain decimal forms
`digits`, `digits.digits`, `digits.` and `.digits`, with the exact rational
value.  (Exponent, hexadecimal and inf/nan forms never arise from the CNAB
decimal decode path and are not modelled.) -/
def goParseFloatCore (s : Bytes) : Option ℚ :=
  match takeDigitsAcc s 0 0 with
  | (ip, icnt, rest) =>
    match rest with
    | [] => if 0 < icnt then some (ip : ℚ) else none
    | '.' :: rest2 =>
      match takeDigitsAcc rest2 0 0 with
      | (fp, fcnt, rest3) =>
        if rest3 = [] ∧ 0 < icnt + fcnt then
          some ((ip : ℚ) + (fp : ℚ) / 10 ^ fcnt)
        else none
    | _ => none

/-- Model of `strconv.ParseFloat` on the plain decimal forms, with an
optional leading sign. -/
def goParseFloat (s : Bytes) : Option ℚ :=
  if s.head? = some '+' then goParseFloatCore (s.drop 1)
  else if s.head? = some '-' then (goParseFloatCore (s.drop 1)).map (fun q => -q)
  else goParseFloatCore s

/-- Typed value of one struct field, covering exactly the field types the
library supports: `string`, `bool`, the signed and unsigned integer kinds
(modelled at their widest, `int64` / `uint64`, which is what `reflect`'s
`v.Int()` / `v.Uint()` produce), the float kinds, and a custom
`gocnab.Marshaler` whose `MarshalCNAB` hook returns the stored bytes. -/
inductive FieldValue where
  | str (s : Bytes)
  | boolean (b : Bool)
  | int (v : Int)
  | uint (v : Nat)
  | float (q : ℚ)
  | custom (out : Bytes)
  deriving DecidableEq

/-- Errors of the library: the five exported sentinel errors, a stand-in for
a `strconv` parse error surfacing from unmarshal, and the two wrapper types
`FieldError` and `UnmarshalFieldError`. -/
inductive CNABError where
  | unsupportedType
  | invalidFieldTagFormat
  | invalidFieldTagBeginRange
  | invalidFieldTagEndRange
  | invalidFieldTagRange
  | numError
  | fieldError (name : Bytes) (err : CNABError)
  | unmarshalFieldError (name : Bytes) (data : Bytes) (err : CNABError)
  deriving DecidableEq

/-- Truncate-or-pad step of `setFieldContent`: content longer than the field
keeps its first `size` bytes, shorter content is padded with spaces on the
right. -/
def padTrunc (fieldContent : Bytes) (size : Nat) : Bytes :=
  if size < fieldContent.length then fieldContent.take size
  else fieldContent ++ List.replicate (size - fieldContent.length) ' '

/-- Model of `setFieldContent`: truncate or pad the content to the field
size, then `copy(data[begin:], strings.ToUpper(content))` — the copy writes
at most `len(data) - begin` bytes and leaves the rest of `data` unchanged. -/
def setFieldContent (data : Bytes) (fieldContent : Bytes) (b e : Nat) : Bytes :=
  data.take b ++ (toUpperStr (padTrunc fieldContent (e - b))).take (data.length - b) ++
    data.drop (b + (padTrunc fieldContent (e - b)).length)

/-- Field content string computed by `marshalField` for each supported value
kind, before it is placed into the line by `setFieldContent`. -/
def marshalFieldContent (cnabFieldSize : Nat) : FieldValue → Bytes
  | .str s => s
  | .boolean b => zeroPadLeft cnabFieldSize (if b then ['1'] else ['0'])
  | .int v => goFormatInt0 cnabFieldSize v
  | .uint v => zeroPadLeft cnabFieldSize (natToDigits v)
  | .float q => '0' :: removeDot (goFormatFloat0 cnabFieldSize q)
  | .custom out => out

/-- Model of `marshalField`: compute the field's textual content and write it
into `data[b:e]`.  Every `FieldValue` constructor is a supported kind, so no
error can arise here (in Go, only a value outside these kinds or a failing
custom hook produces one). -/
def marshalField (data : Bytes) (v : FieldValue) (b e : Nat) : Bytes :=
  setFieldContent data (marshalFieldContent (e - b) v) b e

/-- Model of `strings.Split(s, ",")`. -/
def splitComma : Bytes → List Bytes
  | [] => [[]]
  | c :: rest =>
    if c = ',' then [] :: splitComma rest
    else
      match splitComma rest with
      | [] => [[c]]
      | g :: gs => (c :: g) :: gs

/-- One struct field as the reflection loop sees it: its name, the raw
`cnab:"..."` tag (`[]` when the tag is absent) and its value. -/
structure StructField where
  name : Bytes
  tag : Bytes
  value : FieldValue
  deriving DecidableEq

/-- Model of `parseCNABFieldTag`: an absent tag resolves to the sentinel
`(0, 0)`; otherwise the tag must split on `","` into exactly two `Atoi`-able
integers with `0 ≤ begin`, `begin ≤ end`, `end ≤ dataSize`. -/
def parseCNABFieldTag (tag : Bytes) (dataSize : Nat) : Except CNABError (Int × Int) :=
  if tag = [] then .ok (0, 0)
  else
    match splitComma tag with
    | [beginRaw, endRaw] =>
      match goParseInt64 beginRaw with
      | none => .error .invalidFieldTagBeginRange
      | some b =>
        match goParseInt64 endRaw with
        | none => .error .invalidFieldTagEndRange
        | some e =>
          if b < 0 ∨ e < b ∨ (dataSize : Int) < e then .error .invalidFieldTagRange
          else .ok (b, e)
    | _ => .error .invalidFieldTagFormat

/-- Model of `marshalStruct`: resolve each field's tag against the line
width, skip fields with the sentinel `(0, 0)` range, and write the others
into the line in declaration order, stopping at the first error (wrapped in
a `FieldError` with the field name). -/
def marshalStruct (data : Bytes) : List StructField → Except CNABError Bytes
  | [] => .ok data
  | f :: fs =>
    match parseCNABFieldTag f.tag data.length with
    | .error err => .error (.fieldError f.name err)
    | .ok (b, e) =>
      if b = 0 ∧ e = 0 then marshalStruct data fs
      else marshalStruct (marshalField data f.value b.toNat e.toNat) fs

/-- One top-level argument of a `Marshal240/400/500` call: a struct, a slice
of structs, a `WithFinalControlCharacter` option value, or a value of any
other kind (which `marshalLine` rejects with `ErrUnsupportedType`). -/
inductive MarshalV where
  | struct (fields : List StructField)
  | slice (items : List (List StructField))
  | optionFn (enabled : Bool)
  | other
  deriving DecidableEq

/-- Does `marshal`'s option-extraction loop consume this argument? -/
def MarshalV.isOptionFn : MarshalV → Bool
  | .optionFn _ => true
  | _ => false

/-- Slice arm of `marshalLine`: each element marshalled into its own
fresh space-filled line, a line break after every line but the last. -/
def marshalSlice (lineSize : Nat) : List (List StructField) → Except CNABError Bytes
  | [] => .ok []
  | [item] => marshalStruct (List.replicate lineSize ' ') item
  | item :: rest => do
    let line ← marshalStruct (List.replicate lineSize ' ') item
    let restBytes ← marshalSlice lineSize rest
    .ok (line ++ lineBreak ++ restBytes)

/-- Model of `marshalLine`: a struct fills one fresh space-filled line, a
slice one line per element; anything else is `ErrUnsupportedType`. -/
def marshalLine (lineSize : Nat) : MarshalV → Except CNABError Bytes
  | .struct fields => marshalStruct (List.replicate lineSize ' ') fields
  | .slice items => marshalSlice lineSize items
  | _ => .error .unsupportedType

/-- Marshal options record; the only option is the final control character
toggle, which defaults to enabled. -/
structure MarshalOptions where
  addFinalControlCharacter : Bool
  deriving DecidableEq

/-- Option-extraction loop at the top of `marshal`: every
`MarshalOptionFunc` argument is applied to the options (each
`WithFinalControlCharacter(b)` overwrites the flag with `b`) and the
remaining arguments are compacted in place, preserving their order. -/
def extractOptions (vs : List MarshalV) : MarshalOptions × List MarshalV :=
  vs.foldl
    (fun acc v =>
      match v with
      | .optionFn enabled => ({ addFinalControlCharacter := enabled }, acc.2)
      | _ => (acc.1, acc.2 ++ [v]))
    ({ addFinalControlCharacter := true }, [])

/-- Main loop of `marshal`: marshal each remaining argument into its line
block, appending the line break after every block but the last. -/
def marshalLines (lineSize : Nat) : List MarshalV → Except CNABError Bytes
  | [] => .ok []
  | [v] => marshalLine lineSize v
  | v :: rest => do
    let line ← marshalLine lineSize v
    let restBytes ← marshalLines lineSize rest
    .ok (line ++ lineBreak ++ restBytes)

/-- Model of `marshal`: extract the options, marshal the remaining
arguments, and append the final control character when the option is on,
more than one argument remained, and the accumulated output is non-empty
(in Go the test is `cnab != nil`; every append on this path appends to a
slice that is `nil` exactly while it has length zero, so the nil test
coincides with non-emptiness). -/
def marshal (lineSize : Nat) (vs : List MarshalV) : Except CNABError Bytes :=
  match extractOptions vs with
  | (options, vs2) =>
    match marshalLines lineSize vs2 with
    | .error err => .error err
    | .ok cnab =>
      if options.addFinalControlCharacter ∧ 1 < vs2.length ∧ cnab ≠ [] then
        .ok (cnab ++ finalControlCharacter)
      else .ok cnab

/-- Model of `unmarshalField`: extract `data[b:e]`, trim surrounding
whitespace, and decode according to the kind of the target value.  The
decimal branch re-inserts a decimal point two characters from the right (or
prepends `"0."` when the trimmed string has at most two characters).  A
custom target delegates the raw, untrimmed `data[b:e]` to its
`UnmarshalCNAB` hook, modelled as capturing those bytes. -/
def unmarshalField (data : Bytes) (v : FieldValue) (b e : Nat) : Except CNABError FieldValue :=
  let cnabFieldStr := trimSpace ((data.drop b).take (e - b))
  match v with
  | .str _ => .ok (.str cnabFieldStr)
  | .boolean _ =>
    match goParseInt64 cnabFieldStr with
    | none => .error .numError
    | some n => .ok (.boolean (n ≠ 0))
  | .int _ =>
    match goParseInt64 cnabFieldStr with
    | none => .error .numError
    | some n => .ok (.int n)
  | .uint _ =>
    match goParseUint64 cnabFieldStr with
    | none => .error .numError
    | some n => .ok (.uint n)
  | .float _ =>
    let numberRaw :=
      if 2 < cnabFieldStr.length then
        cnabFieldStr.take (cnabFieldStr.length - 2) ++
          '.' :: cnabFieldStr.drop (cnabFieldStr.length - 2)
      else '0' :: '.' :: cnabFieldStr
    match goParseFloat numberRaw with
    | none => .error .numError
    | some q => .ok (.float q)
  | .custom _ => .ok (.custom ((data.drop b).take (e - b)))

/-- Model of `unmarshalStruct`: resolve each field's tag against the data
length, skip fields with the sentinel `(0, 0)` range, decode the others in
declaration order and store the decoded values, stopping at the first error
(wrapped in an `UnmarshalFieldError` with the field name and raw bytes).
Only exported fields are modelled, so the `CanSet` skip never fires. -/
def unmarshalStruct (data : Bytes) : List StructField → Except CNABError (List StructField)
  | [] => .ok []
  | f :: fs =>
    match parseCNABFieldTag f.tag data.length with
    | .error err => .error (.fieldError f.name err)
    | .ok (b, e) =>
      if b = 0 ∧ e = 0 then
        (unmarshalStruct data fs).map (f :: ·)
      else
        match unmarshalField data f.value b.toNat e.toNat with
        | .error err =>
          .error (.unmarshalFieldError f.name
            ((data.drop b.toNat).take (e.toNat - b.toNat)) err)
        | .ok v2 => (unmarshalStruct data fs).map ({ f with value := v2 } :: ·)

/-- Model of `bytes.Split(data, []byte(LineBreak))`: split on every CR LF
pair, left to right. -/
def splitCRLF : Bytes → List Bytes
  | [] => [[]]
  | '\r' :: '\n' :: rest => [] :: splitCRLF rest
  | c :: rest =>
    match splitCRLF rest with
    | [] => [[c]]
    | g :: gs => (c :: g) :: gs

/-- One iteration of `unmarshalMapper`'s grouping loop over a line: the line
(if non-empty) is appended to the group of every key that is a byte-prefix
of it, with a line break glued before it when the group already exists.  The
group-by map is represented as a function from keys to optional contents;
entries are only ever consulted at the mapper's keys. -/
def addLine (gb : Bytes → Option Bytes) (line : Bytes) : Bytes → Option Bytes :=
  fun id =>
    if line ≠ [] ∧ List.isPrefixOf id line then
      match gb id with
      | none => some line
      | some g => some (g ++ lineBreak ++ line)
    else gb id

/-- Grouping phase of `unmarshalMapper`: split the data on line breaks and
fold every line through `addLine`. -/
def buildGroups (data : Bytes) : Bytes → Option Bytes :=
  (splitCRLF data).foldl addLine (fun _ => none)

/-- One destination accepted by `Unmarshal`: a struct pointer, a pointer to
a slice of structs (carrying the element template — the zero value of the
element type — and the items already present, which decoding appends to), a
mapper from prefix keys to nested destinations, or a value of any other
shape (which fails with `ErrUnsupportedType`). -/
inductive UnmarshalV where
  | structPtr (fields : List StructField)
  | slicePtr (template : List StructField) (items : List (List StructField))
  | mapper (entries : List (Bytes × UnmarshalV))
  | invalid

/-- Loop of `unmarshalSlice`: every non-empty line is decoded into a fresh
zero-valued element (the template) and the results are collected in order,
stopping at the first error. -/
def unmarshalSliceLines (template : List StructField) :
    List Bytes → Except CNABError (List (List StructField))
  | [] => .ok []
  | line :: rest =>
    if line = [] then unmarshalSliceLines template rest
    else
      match unmarshalStruct line template with
      | .error err => .error err
      | .ok item => (unmarshalSliceLines template rest).map (item :: ·)

mutual

/-- Model of `Unmarshal`: dispatch on the destination shape.  A struct
pointer decodes the whole data as one line; a slice pointer decodes each
non-empty line into a fresh element and appends the results; a mapper groups
the lines by prefix and recursively unmarshals each group into its key's
destination; anything else is `ErrUnsupportedType`.  (Go iterates the groups
in unspecified map order; the model processes mapper entries in list order,
which agrees with Go whenever every processed group succeeds, the only
situation the claims address.) -/
def unmarshalValue (data : Bytes) : UnmarshalV → Except CNABError UnmarshalV
  | .structPtr fields => (unmarshalStruct data fields).map .structPtr
  | .slicePtr template items =>
    (unmarshalSliceLines template (splitCRLF data)).map
      (fun its => .slicePtr template (items ++ its))
  | .mapper entries =>
    (unmarshalMapperEntries (buildGroups data) entries).map .mapper
  | .invalid => .error .unsupportedType

/-- Dispatch phase of `unmarshalMapper`: each mapper entry whose key
accumulated a group is recursively unmarshalled from that group; an entry
whose key matched no line is left untouched and never validated. -/
def unmarshalMapperEntries (gb : Bytes → Option Bytes) :
    List (Bytes × UnmarshalV) → Except CNABError (List (Bytes × UnmarshalV))
  | [] => .ok []
  | (id, dest) :: rest =>
    match gb id with
    | none => (unmarshalMapperEntries gb rest).map ((id, dest) :: ·)
    | some lines =>
      match unmarshalValue lines dest with
      | .error err => .error err
      | .ok dest2 => (unmarshalMapperEntries gb rest).map ((id, dest2) :: ·)

end

/-- Half-open byte slice `l[b:e]` of a Go byte string. -/
def slice (l : Bytes) (b e : Nat) : Bytes := (l.drop b).take (e - b)

/-- Decimal rendering of an integer (what `strconv.Itoa` prints). -/
def intToChars (v : Int) : Bytes :=
  if v < 0 then '-' :: natToDigits (-v).toNat else natToDigits v.toNat

/-- A numeric `cnab:"begin,end"` struct tag. -/
def mkTag (b e : Int) : Bytes := intToChars b ++ ',' :: intToChars e

/-- A field described directly by its resolved range, used to state the
claims that quantify over records with valid descriptors; `toStructField`
renders it back into a tagged field as the reflection loop sees it. -/
structure FieldSpec where
  name : Bytes
  b : Nat
  e : Nat
  value : FieldValue

/-- The tagged struct field corresponding to a `FieldSpec`. -/
def FieldSpec.toStructField (f : FieldSpec) : StructField :=
  ⟨f.name, mkTag (f.b : Int) (f.e : Int), f.value⟩

/-- Struct corresponding to a list of `FieldSpec`s. -/
def specFields (l : List FieldSpec) : List StructField := l.map FieldSpec.toStructField

/-- Validity of a field descriptor against a line width: a non-empty range
inside the line.  The int64 bound (every `cnab` tag value is a Go `int`)
keeps the numeric tag faithful to `strconv.Atoi`. -/
def FieldSpec.Valid (lineWidth : Nat) (f : FieldSpec) : Prop :=
  f.b < f.e ∧ f.e ≤ lineWidth ∧ f.e < 9223372036854775808

/-- Disjointness of the ranges of two field descriptors. -/
def FieldSpec.Disj (f g : FieldSpec) : Prop := f.e ≤ g.b ∨ g.e ≤ f.b

instance : DecidableRel FieldSpec.Disj :=
  fun f g => inferInstanceAs (Decidable (f.e ≤ g.b ∨ g.e ≤ f.b))

/-- The value kinds for which the codec loses no information, together with
the per-kind conditions under which the encoding is not truncated:
text must fit its field and survive trimming, integers must fit both their
machine type and the field, and a decimal value must be a non-negative exact
multiple of 0.01 whose rendering fits the field.  Custom codecs are excluded
(their hooks are arbitrary). -/
def NonLossy (n : Nat) : FieldValue → Prop
  | .str s => s.length ≤ n ∧ trimSpace (toUpperStr s) = toUpperStr s
  | .boolean _ => True
  | .int v => -9223372036854775808 ≤ v ∧ v < 9223372036854775808 ∧
      (goFormatInt0 n v).length ≤ n
  | .uint v => v < 18446744073709551616 ∧ (natToDigits v).length ≤ n
  | .float q => ∃ cents : Nat, q = (cents : ℚ) / 100 ∧
      (natToDigits (cents / 100)).length + 3 ≤ n
  | .custom _ => False

/-- Normalisation performed by a lossless encode/decode round trip: text is
uppercased, every other kind is returned unchanged. -/
def normalizeValue : FieldValue → FieldValue
  | .str s => .str (toUpperStr s)
  | v => v

/-- Field-level normalisation. -/
def normalizeField (f : StructField) : StructField := { f with value := normalizeValue f.value }

/-- The final-control-character setting left in the options after the
extraction loop: the last `WithFinalControlCharacter` argument wins, the
default is the starting value. -/
def lastEnabled (vs : List MarshalV) (dflt : Bool) : Bool :=
  vs.foldl
    (fun acc v =>
      match v with
      | .optionFn enabled => enabled
      | _ => acc)
    dflt

/-- Accumulated contents of one group of the prefix dispatcher after a list
of matching lines has been appended to it. -/
def appendGroup : Option Bytes → List Bytes → Option Bytes
  | g, [] => g
  | none, l :: ls => appendGroup (some l) ls
  | some g, l :: ls => appendGroup (some (g ++ lineBreak ++ l)) ls

/-! ### Digit strings: formatting and parsing round trips -/

theorem digitCh_mem (d : Nat) : digitCh d ∈ digitChars := by
  by_cases h : d < 10
  · interval_cases d <;> decide
  · unfold digitCh
    rw [List.getD_eq_default]
    · decide
    · simp only [digitChars, List.length_cons, List.length_nil]
      omega

theorem digitChars_facts :
    ∀ c ∈ digitChars, c.toUpper = c ∧ goIsSpace c = false ∧ (digitVal c).isSome ∧
      c ≠ ',' ∧ c ≠ '.' ∧ c ≠ '-' ∧ c ≠ '+' := by decide

theorem digitVal_digitCh {d : Nat} (h : d < 10) : digitVal (digitCh d) = some d := by
  interval_cases d <;> decide

theorem natToDigitsAux_fuel : ∀ fuel₁ fuel₂ n : Nat, n < fuel₁ → n < fuel₂ →
    natToDigitsAux fuel₁ n = natToDigitsAux fuel₂ n := by
  intro fuel₁
  induction fuel₁ with
  | zero => intro fuel₂ n h₁; omega
  | succ f₁ ih =>
    intro fuel₂ n h₁ h₂
    cases fuel₂ with
    | zero => omega
    | succ f₂ =>
      simp only [natToDigitsAux]
      by_cases h : n < 10
      · simp [h]
      · simp only [if_neg h]
        have hd : n / 10 < n := Nat.div_lt_self (by omega) (by omega)
        rw [ih f₂ (n / 10) (by omega) (by omega)]

theorem natToDigits_of_lt {n : Nat} (h : n < 10) : natToDigits n = [digitCh n] := by
  simp [natToDigits, natToDigitsAux, h]

theorem natToDigits_of_ge {n : Nat} (h : 10 ≤ n) :
    natToDigits n = natToDigits (n / 10) ++ [digitCh (n % 10)] := by
  show natToDigitsAux (n + 1) n = natToDigitsAux (n / 10 + 1) (n / 10) ++ [digitCh (n % 10)]
  cases n with
  | zero => omega
  | succ m =>
    simp only [natToDigitsAux, if_neg (by omega : ¬ m + 1 < 10)]
    by_cases h2 : (m + 1) / 10 < 10
    · simp [h2]
    · simp only [if_neg h2]
      rw [natToDigitsAux_fuel m ((m + 1) / 10) ((m + 1) / 10 / 10) (by omega) (by omega)]

theorem mem_natToDigits : ∀ (n : Nat), ∀ c ∈ natToDigits n, c ∈ digitChars := by
  intro n
  induction n using Nat.strong_induction_on with
  | _ n ih =>
    intro c hc
    by_cases h : n < 10
    · rw [natToDigits_of_lt h] at hc
      simp at hc
      subst hc
      exact digitCh_mem n
    · rw [natToDigits_of_ge (by omega)] at hc
      rcases List.mem_append.mp hc with h₁ | h₂
      · exact ih (n / 10) (Nat.div_lt_self (by omega) (by omega)) c h₁
      · simp at h₂
        subst h₂
        exact digitCh_mem _

theorem natToDigits_ne_nil (n : Nat) : natToDigits n ≠ [] := by
  by_cases h : n < 10
  · rw [natToDigits_of_lt h]; simp
  · rw [natToDigits_of_ge (by omega)]; simp

theorem takeDigitsAcc_append_natToDigits :
    ∀ (n : Nat) (rest : Bytes) (acc cnt : Nat),
      takeDigitsAcc (natToDigits n ++ rest) acc cnt =
        takeDigitsAcc rest (acc * 10 ^ (natToDigits n).length + n)
          (cnt + (natToDigits n).length) := by
  intro n
  induction n using Nat.strong_induction_on with
  | _ n ih =>
    intro rest acc cnt
    by_cases h : n < 10
    · rw [natToDigits_of_lt h]
      simp only [List.cons_append, List.nil_append, takeDigitsAcc, digitVal_digitCh h,
        List.length_cons, List.length_nil]
      norm_num
    · rw [natToDigits_of_ge (by omega)]
      have hd : n / 10 < n := Nat.div_lt_self (by omega) (by omega)
      rw [List.append_assoc, List.cons_append, List.nil_append,
        ih (n / 10) hd (digitCh (n % 10) :: rest) acc cnt]
      simp only [takeDigitsAcc, digitVal_digitCh (Nat.mod_lt n (by omega)),
        List.length_append, List.length_singleton]
      have hval : (acc * 10 ^ (natToDigits (n / 10)).length + n / 10) * 10 + n % 10 =
          acc * 10 ^ ((natToDigits (n / 10)).length + 1) + n := by
        rw [pow_succ]
        have hmod : n / 10 * 10 + n % 10 = n := by omega
        calc (acc * 10 ^ (natToDigits (n / 10)).length + n / 10) * 10 + n % 10
            = acc * (10 ^ (natToDigits (n / 10)).length * 10) + (n / 10 * 10 + n % 10) := by
              ring
          _ = acc * (10 ^ (natToDigits (n / 10)).length * 10) + n := by rw [hmod]
      rw [hval]
      have hcnt : cnt + (natToDigits (n / 10)).length + 1 =
          cnt + ((natToDigits (n / 10)).length + 1) := by omega
      rw [hcnt]

theorem takeDigitsAcc_replicate_zero :
    ∀ (k : Nat) (rest : Bytes) (acc cnt : Nat),
      takeDigitsAcc (List.replicate k '0' ++ rest) acc cnt =
        takeDigitsAcc rest (acc * 10 ^ k) (cnt + k) := by
  intro k
  induction k with
  | zero => simp
  | succ k ih =>
    intro rest acc cnt
    rw [List.replicate_succ, List.cons_append]
    simp only [takeDigitsAcc, show digitVal '0' = some 0 from rfl]
    rw [ih rest (acc * 10 + 0) (cnt + 1)]
    congr 1
    · rw [pow_succ]; ring
    · omega

theorem length_natToDigits_pos (n : Nat) : 0 < (natToDigits n).length :=
  List.length_pos.mpr (natToDigits_ne_nil n)

theorem parseDigits_replicate_natToDigits (k n : Nat) :
    parseDigits (List.replicate k '0' ++ natToDigits n) = some n := by
  unfold parseDigits
  rw [takeDigitsAcc_replicate_zero]
  rw [show natToDigits n = natToDigits n ++ [] from (List.append_nil _).symm,
    takeDigitsAcc_append_natToDigits]
  have hL := length_natToDigits_pos n
  have hpos : 0 < 0 + k + (natToDigits n).length := by omega
  simp only [takeDigitsAcc]
  simp [hpos, natToDigits_ne_nil n]

theorem parseDigits_natToDigits (n : Nat) : parseDigits (natToDigits n) = some n := by
  have := parseDigits_replicate_natToDigits 0 n
  simpa using this

theorem parseDigits_zeroPadLeft_natToDigits (w n : Nat) :
    parseDigits (zeroPadLeft w (natToDigits n)) = some n :=
  parseDigits_replicate_natToDigits _ n

theorem zeroPadLeft_length (w : Nat) (s : Bytes) : (zeroPadLeft w s).length = max w s.length := by
  simp only [zeroPadLeft, List.length_append, List.length_replicate]
  omega

theorem mem_zeroPadLeft {c : Char} {w : Nat} {s : Bytes} (h : c ∈ zeroPadLeft w s) :
    c = '0' ∨ c ∈ s := by
  rcases List.mem_append.mp h with h₁ | h₂
  · exact Or.inl (List.eq_of_mem_replicate h₁)
  · exact Or.inr h₂

theorem zeroPadLeft_head (w n : Nat) :
    ∃ c ∈ digitChars, (zeroPadLeft w (natToDigits n)).head? = some c := by
  unfold zeroPadLeft
  cases hk : w - (natToDigits n).length with
  | zero =>
    simp only [List.replicate, List.nil_append]
    cases hD : natToDigits n with
    | nil => exact absurd hD (natToDigits_ne_nil n)
    | cons c cs =>
      refine ⟨c, ?_, by simp⟩
      exact mem_natToDigits n c (hD ▸ List.mem_cons_self c cs)
  | succ j => exact ⟨'0', by decide, by simp [List.replicate_succ]⟩

theorem digitChars_signs : ∀ c ∈ digitChars, c ≠ '-' ∧ c ≠ '+' ∧ c ≠ ',' ∧ c ≠ '.' := by decide

theorem goParseInt64_goFormatInt0 (w : Nat) {v : Int}
    (h₁ : -9223372036854775808 ≤ v) (h₂ : v < 9223372036854775808) :
    goParseInt64 (goFormatInt0 w v) = some v := by
  unfold goFormatInt0 goParseInt64
  by_cases hv : v < 0
  · simp only [if_pos hv, List.head?_cons, List.drop_succ_cons, List.drop_zero]
    rw [if_pos (trivial : True), parseDigits_zeroPadLeft_natToDigits]
    have hnn : (0 : Int) ≤ -v := by omega
    have htn : ((-v).toNat : Int) = -v := Int.toNat_of_nonneg hnn
    simp only [Option.some_bind]
    rw [if_pos (show ((-v).toNat : Int) ≤ 9223372036854775808 by omega), htn, neg_neg]
  · simp only [if_neg hv]
    obtain ⟨c, hc, hhead⟩ := zeroPadLeft_head w v.toNat
    rw [hhead]
    have hsig := digitChars_signs c hc
    rw [if_neg (by intro h; exact hsig.1 (Option.some.inj h)),
      if_neg (by intro h; exact hsig.2.1 (Option.some.inj h)),
      parseDigits_zeroPadLeft_natToDigits]
    have htn : (v.toNat : Int) = v := Int.toNat_of_nonneg (by omega)
    rw [Option.some_bind]
    rw [if_pos (show ((v.toNat : Int) < 9223372036854775808) by omega), htn]

theorem goParseUint64_zeroPadLeft (w : Nat) {n : Nat} (h : n < 18446744073709551616) :
    goParseUint64 (zeroPadLeft w (natToDigits n)) = some n := by
  unfold goParseUint64
  rw [parseDigits_zeroPadLeft_natToDigits]
  simp only [Option.some_bind]
  rw [if_pos h]

/-! ### Whitespace trimming and uppercasing -/

theorem dropWhile_eq_self_of_forall {p : Char → Bool} {l : Bytes}
    (h : ∀ c ∈ l, p c = false) : l.dropWhile p = l := by
  cases l with
  | nil => rfl
  | cons c cs =>
    rw [List.dropWhile_cons]
    simp [h c (List.mem_cons_self c cs)]

theorem trimSpace_eq_self {s : Bytes} (h : ∀ c ∈ s, goIsSpace c = false) : trimSpace s = s := by
  unfold trimSpace trimRightSpace
  rw [dropWhile_eq_self_of_forall (fun c hc => h c (List.mem_reverse.mp hc)),
    List.reverse_reverse, dropWhile_eq_self_of_forall h]

theorem dropWhile_replicate_space (k : Nat) (s : Bytes) :
    (List.replicate k ' ' ++ s).dropWhile goIsSpace = s.dropWhile goIsSpace := by
  induction k with
  | zero => simp
  | succ k ih =>
    rw [List.replicate_succ, List.cons_append, List.dropWhile_cons]
    simp only [show goIsSpace ' ' = true from rfl, if_true]
    exact ih

theorem trimSpace_append_spaces (s : Bytes) (k : Nat) :
    trimSpace (s ++ List.replicate k ' ') = trimSpace s := by
  unfold trimSpace trimRightSpace
  rw [List.reverse_append, List.reverse_replicate, dropWhile_replicate_space]

theorem toUpperStr_append (s t : Bytes) : toUpperStr (s ++ t) = toUpperStr s ++ toUpperStr t :=
  List.map_append _ s t

theorem toUpperStr_replicate_space (k : Nat) :
    toUpperStr (List.replicate k ' ') = List.replicate k ' ' := by
  simp [toUpperStr, List.map_replicate]

theorem toUpperStr_length (s : Bytes) : (toUpperStr s).length = s.length :=
  List.length_map s _

theorem toUpperStr_eq_self {s : Bytes} (h : ∀ c ∈ s, c.toUpper = c) : toUpperStr s = s := by
  induction s with
  | nil => rfl
  | cons c cs ih =>
    simp only [toUpperStr, List.map_cons] at *
    rw [h c (List.mem_cons_self c cs), ih (fun x hx => h x (List.mem_cons_of_mem c hx))]

theorem numChars_facts : ∀ c ∈ '-' :: '.' :: digitChars, c.toUpper = c ∧ goIsSpace c = false := by
  decide

theorem toUpperStr_eq_self_of_num {s : Bytes} (h : ∀ c ∈ s, c ∈ '-' :: '.' :: digitChars) :
    toUpperStr s = s :=
  toUpperStr_eq_self fun c hc => (numChars_facts c (h c hc)).1

theorem trimSpace_eq_self_of_num {s : Bytes} (h : ∀ c ∈ s, c ∈ '-' :: '.' :: digitChars) :
    trimSpace s = s :=
  trimSpace_eq_self fun c hc => (numChars_facts c (h c hc)).2

theorem mem_goFormatInt0 {c : Char} {w : Nat} {v : Int} (h : c ∈ goFormatInt0 w v) :
    c ∈ '-' :: '.' :: digitChars := by
  unfold goFormatInt0 at h
  by_cases hv : v < 0
  · rw [if_pos hv] at h
    rcases List.mem_cons.mp h with h₁ | h₂
    · simp [h₁]
    · rcases mem_zeroPadLeft h₂ with h₃ | h₄
      · simp [h₃, digitChars]
      · exact List.mem_cons_of_mem _ (List.mem_cons_of_mem _ (mem_natToDigits _ c h₄))
  · rw [if_neg hv] at h
    rcases mem_zeroPadLeft h with h₃ | h₄
    · simp [h₃, digitChars]
    · exact List.mem_cons_of_mem _ (List.mem_cons_of_mem _ (mem_natToDigits _ c h₄))

theorem mem_zeroPadLeft_natToDigits {c : Char} {w n : Nat}
    (h : c ∈ zeroPadLeft w (natToDigits n)) : c ∈ '-' :: '.' :: digitChars := by
  rcases mem_zeroPadLeft h with h₁ | h₂
  · simp [h₁, digitChars]
  · exact List.mem_cons_of_mem _ (List.mem_cons_of_mem _ (mem_natToDigits _ c h₂))

/-! ### Writing a field into the line buffer -/

theorem padTrunc_length (fc : Bytes) (size : Nat) : (padTrunc fc size).length = size := by
  unfold padTrunc
  split
  · simp
    omega
  · simp
    omega

theorem padTrunc_of_length_eq {fc : Bytes} {size : Nat} (h : fc.length = size) :
    padTrunc fc size = fc := by
  unfold padTrunc
  rw [if_neg (by omega)]
  simp [h]

theorem padTrunc_of_length_le {fc : Bytes} {size : Nat} (h : fc.length ≤ size) :
    padTrunc fc size = fc ++ List.replicate (size - fc.length) ' ' := by
  unfold padTrunc
  rw [if_neg (by omega)]

theorem setFieldContent_spec (data fc : Bytes) {b e : Nat} (h₁ : b ≤ e) (h₂ : e ≤ data.length) :
    setFieldContent data fc b e =
      data.take b ++ toUpperStr (padTrunc fc (e - b)) ++ data.drop e := by
  unfold setFieldContent
  rw [List.take_of_length_le
    (show (toUpperStr (padTrunc fc (e - b))).length ≤ data.length - b by
      rw [toUpperStr_length, padTrunc_length]; omega)]
  congr 1
  rw [padTrunc_length]
  congr 1
  omega

theorem setFieldContent_length (data fc : Bytes) {b e : Nat} (h₁ : b ≤ e)
    (h₂ : e ≤ data.length) : (setFieldContent data fc b e).length = data.length := by
  rw [setFieldContent_spec data fc h₁ h₂]
  simp only [List.length_append, List.length_take, List.length_drop, toUpperStr_length,
    padTrunc_length]
  omega

theorem getElem?_slice (l : Bytes) (b e i : Nat) :
    (slice l b e)[i]? = if i < e - b then l[b + i]? else none := by
  unfold slice
  rw [List.getElem?_take]
  split
  · rw [List.getElem?_drop]
  · rfl

theorem slice_eq_of_getElem? {l₁ l₂ : Bytes} {b e : Nat}
    (h : ∀ i, b ≤ i → i < e → l₁[i]? = l₂[i]?) : slice l₁ b e = slice l₂ b e := by
  apply List.ext_getElem?
  intro i
  rw [getElem?_slice, getElem?_slice]
  split
  · exact h (b + i) (by omega) (by omega)
  · rfl

theorem getElem?_setFieldContent_outside (data fc : Bytes) {b e : Nat} (h₁ : b ≤ e)
    (h₂ : e ≤ data.length) {i : Nat} (hi : i < b ∨ e ≤ i) :
    (setFieldContent data fc b e)[i]? = data[i]? := by
  rw [setFieldContent_spec data fc h₁ h₂, List.append_assoc]
  have hA : (data.take b).length = b := by
    rw [List.length_take]
    omega
  have hX : (toUpperStr (padTrunc fc (e - b))).length = e - b := by
    rw [toUpperStr_length, padTrunc_length]
  rcases hi with hi | hi
  · rw [List.getElem?_append, if_pos (show i < (data.take b).length by omega)]
    rw [List.getElem?_take, if_pos hi]
  · rw [List.getElem?_append_right (show (data.take b).length ≤ i by omega)]
    rw [List.getElem?_append_right (by rw [hX]; omega)]
    rw [List.getElem?_drop]
    congr 1
    omega

theorem slice_setFieldContent_self (data fc : Bytes) {b e : Nat} (h₁ : b ≤ e)
    (h₂ : e ≤ data.length) :
    slice (setFieldContent data fc b e) b e = toUpperStr (padTrunc fc (e - b)) := by
  rw [setFieldContent_spec data fc h₁ h₂, List.append_assoc]
  unfold slice
  rw [List.drop_left' (show (data.take b).length = b by rw [List.length_take]; omega),
    List.take_left' (show (toUpperStr (padTrunc fc (e - b))).length = e - b by
      rw [toUpperStr_length, padTrunc_length])]

theorem slice_setFieldContent_disjoint (data fc : Bytes) {b e b' e' : Nat} (h₁ : b ≤ e)
    (h₂ : e ≤ data.length) (hd : e' ≤ b ∨ e ≤ b') :
    slice (setFieldContent data fc b e) b' e' = slice data b' e' := by
  apply slice_eq_of_getElem?
  intro i hbi hie
  exact getElem?_setFieldContent_outside data fc h₁ h₂ (by omega)

/-! ### Range descriptor resolution -/

theorem zeroPadLeft_zero (s : Bytes) : zeroPadLeft 0 s = s := by
  simp [zeroPadLeft]

theorem goFormatInt0_zero (v : Int) : goFormatInt0 0 v = intToChars v := by
  unfold goFormatInt0 intToChars
  split <;> simp [zeroPadLeft]

theorem goParseInt64_intToChars {v : Int}
    (h₁ : -9223372036854775808 ≤ v) (h₂ : v < 9223372036854775808) :
    goParseInt64 (intToChars v) = some v := by
  rw [← goFormatInt0_zero]
  exact goParseInt64_goFormatInt0 0 h₁ h₂

theorem mem_intToChars {c : Char} {v : Int} (h : c ∈ intToChars v) :
    c ∈ '-' :: '.' :: digitChars := by
  rw [← goFormatInt0_zero] at h
  exact mem_goFormatInt0 h

theorem numChars_ne_comma : ∀ c ∈ '-' :: '.' :: digitChars, c ≠ ',' := by decide

theorem mkTag_ne_nil (b e : Int) : mkTag b e ≠ [] := by
  unfold mkTag
  simp

theorem splitComma_not_comma {s : Bytes} (h : ∀ c ∈ s, c ≠ ',') : splitComma s = [s] := by
  induction s with
  | nil => rfl
  | cons c cs ih =>
    simp only [splitComma]
    rw [if_neg (h c (List.mem_cons_self c cs)),
      ih (fun x hx => h x (List.mem_cons_of_mem c hx))]

theorem splitComma_append {xs ys : Bytes} (h : ∀ c ∈ xs, c ≠ ',') :
    splitComma (xs ++ ',' :: ys) = xs :: splitComma ys := by
  induction xs with
  | nil =>
    simp [splitComma]
  | cons c cs ih =>
    simp only [List.cons_append, splitComma, List.append_eq]
    rw [if_neg (h c (List.mem_cons_self c cs)),
      ih (fun x hx => h x (List.mem_cons_of_mem c hx))]

theorem splitComma_mkTag (b e : Int) :
    splitComma (mkTag b e) = [intToChars b, intToChars e] := by
  unfold mkTag
  rw [splitComma_append (fun c hc => numChars_ne_comma c (mem_intToChars hc)),
    splitComma_not_comma (fun c hc => numChars_ne_comma c (mem_intToChars hc))]

theorem parseCNABFieldTag_mkTag (b e : Int) (size : Nat)
    (hb₁ : -9223372036854775808 ≤ b) (hb₂ : b < 9223372036854775808)
    (he₁ : -9223372036854775808 ≤ e) (he₂ : e < 9223372036854775808) :
    parseCNABFieldTag (mkTag b e) size =
      if b < 0 ∨ e < b ∨ (size : Int) < e then .error .invalidFieldTagRange
      else .ok (b, e) := by
  unfold parseCNABFieldTag
  rw [if_neg (mkTag_ne_nil b e), splitComma_mkTag]
  simp only [goParseInt64_intToChars hb₁ hb₂, goParseInt64_intToChars he₁ he₂]

theorem parseCNABFieldTag_valid {size : Nat} {f : FieldSpec} (h₁ : f.b < f.e) (h₂ : f.e ≤ size)
    (h₃ : f.e < 9223372036854775808) :
    parseCNABFieldTag (FieldSpec.toStructField f).tag size = .ok ((f.b : Int), (f.e : Int)) := by
  unfold FieldSpec.toStructField
  rw [parseCNABFieldTag_mkTag _ _ _ (by omega) (by omega) (by omega) (by omega)]
  rw [if_neg (by omega)]

/-! ### Record encoding: success, length and slice characterisation -/

theorem marshalStruct_cons_valid {data : Bytes} {f : FieldSpec} {fs : List FieldSpec}
    (h₁ : f.b < f.e) (h₂ : f.e ≤ data.length) (h₃ : f.e < 9223372036854775808) :
    marshalStruct data (specFields (f :: fs)) =
      marshalStruct (marshalField data f.value f.b f.e) (specFields fs) := by
  simp only [specFields, List.map_cons, marshalStruct, parseCNABFieldTag_valid h₁ h₂ h₃]
  rw [if_neg (by omega)]
  simp only [FieldSpec.toStructField, Int.toNat_natCast]

theorem marshalStruct_spec : ∀ (fs : List FieldSpec) (data : Bytes),
    (∀ f ∈ fs, f.Valid data.length) →
    ∃ out, marshalStruct data (specFields fs) = .ok out ∧ out.length = data.length ∧
      (∀ i, (∀ f ∈ fs, i < f.b ∨ f.e ≤ i) → out[i]? = data[i]?) := by
  intro fs
  induction fs with
  | nil =>
    intro data _
    exact ⟨data, rfl, rfl, fun i _ => rfl⟩
  | cons f fs ih =>
    intro data hv
    obtain ⟨hbe, he, hbnd⟩ := hv f (List.mem_cons_self f fs)
    rw [marshalStruct_cons_valid hbe he hbnd]
    have hlen : (marshalField data f.value f.b f.e).length = data.length :=
      setFieldContent_length data _ (by omega) he
    obtain ⟨out, hout, houtlen, houtside⟩ :=
      ih (marshalField data f.value f.b f.e)
        (fun g hg => by rw [FieldSpec.Valid, hlen]; exact hv g (List.mem_cons_of_mem f hg))
    refine ⟨out, hout, by omega, ?_⟩
    intro i hi
    rw [houtside i (fun g hg => hi g (List.mem_cons_of_mem f hg))]
    exact getElem?_setFieldContent_outside data _ (by omega) he
      (hi f (List.mem_cons_self f fs))

theorem marshalStruct_slice_preserved {fs : List FieldSpec} {data out : Bytes} {b e : Nat}
    (hv : ∀ f ∈ fs, f.Valid data.length)
    (hout : marshalStruct data (specFields fs) = .ok out)
    (hd : ∀ f ∈ fs, f.e ≤ b ∨ e ≤ f.b) : slice out b e = slice data b e := by
  obtain ⟨out', hout', _, houtside⟩ := marshalStruct_spec fs data hv
  rw [hout'] at hout
  cases hout
  apply slice_eq_of_getElem?
  intro i hbi hie
  exact houtside i (fun f hf => by rcases hd f hf with h | h <;> omega)

theorem marshalStruct_slice : ∀ (fs : List FieldSpec) (data out : Bytes),
    (∀ f ∈ fs, f.Valid data.length) → List.Pairwise FieldSpec.Disj fs →
    marshalStruct data (specFields fs) = .ok out →
    ∀ f ∈ fs, slice out f.b f.e =
      toUpperStr (padTrunc (marshalFieldContent (f.e - f.b) f.value) (f.e - f.b)) := by
  intro fs
  induction fs with
  | nil =>
    intro data out _ _ _ f hf
    exact absurd hf (List.not_mem_nil f)
  | cons g fs ih =>
    intro data out hv hp hout f hf
    obtain ⟨hbe, he, hbnd⟩ := hv g (List.mem_cons_self g fs)
    rw [marshalStruct_cons_valid hbe he hbnd] at hout
    have hlen : (marshalField data g.value g.b g.e).length = data.length :=
      setFieldContent_length data _ (by omega) he
    have hv' : ∀ x ∈ fs, x.Valid (marshalField data g.value g.b g.e).length :=
      fun x hx => by rw [FieldSpec.Valid, hlen]; exact hv x (List.mem_cons_of_mem g hx)
    rcases List.mem_cons.mp hf with rfl | hf'
    · rw [marshalStruct_slice_preserved hv' hout
        (fun x hx => Or.symm ((List.pairwise_cons.mp hp).1 x hx))]
      exact slice_setFieldContent_self data _ (by omega) he
    · exact ih (marshalField data g.value g.b g.e) out hv' (List.pairwise_cons.mp hp).2
        hout f hf'

/-! ### Field decoding: per-kind round trips -/

theorem unmarshalField_str (data s : Bytes) (b e : Nat) :
    unmarshalField data (.str s) b e = .ok (.str (trimSpace (slice data b e))) := rfl

theorem unmarshalField_boolean (data : Bytes) (v : Bool) (b e : Nat) :
    unmarshalField data (.boolean v) b e =
      match goParseInt64 (trimSpace (slice data b e)) with
      | none => .error .numError
      | some n => .ok (.boolean (n ≠ 0)) := rfl

theorem unmarshalField_int (data : Bytes) (v : Int) (b e : Nat) :
    unmarshalField data (.int v) b e =
      match goParseInt64 (trimSpace (slice data b e)) with
      | none => .error .numError
      | some n => .ok (.int n) := rfl

theorem unmarshalField_uint (data : Bytes) (v : Nat) (b e : Nat) :
    unmarshalField data (.uint v) b e =
      match goParseUint64 (trimSpace (slice data b e)) with
      | none => .error .numError
      | some n => .ok (.uint n) := rfl

theorem unmarshalField_float (data : Bytes) (v : ℚ) (b e : Nat) :
    unmarshalField data (.float v) b e =
      match goParseFloat
        (if 2 < (trimSpace (slice data b e)).length then
          (trimSpace (slice data b e)).take ((trimSpace (slice data b e)).length - 2) ++
            '.' :: (trimSpace (slice data b e)).drop ((trimSpace (slice data b e)).length - 2)
        else '0' :: '.' :: trimSpace (slice data b e)) with
      | none => .error .numError
      | some q => .ok (.float q) := rfl

theorem goParseInt64_zeroPadLeft (w : Nat) {n : Nat} (h : (n : Int) < 9223372036854775808) :
    goParseInt64 (zeroPadLeft w (natToDigits n)) = some (n : Int) := by
  have hfmt := goParseInt64_goFormatInt0 w (v := (n : Int)) (by omega) h
  rw [goFormatInt0, if_neg (by omega)] at hfmt
  rw [Int.toNat_natCast] at hfmt
  exact hfmt

theorem mem_twoDigits {c : Char} {m : Nat} (h : c ∈ twoDigits m) : c ∈ digitChars := by
  unfold twoDigits at h
  rcases List.mem_cons.mp h with rfl | h
  · exact digitCh_mem _
  · rcases List.mem_cons.mp h with rfl | h
    · exact digitCh_mem _
    · exact absurd h (List.not_mem_nil c)

theorem removeDot_eq_self {s : Bytes} (h : ∀ c ∈ s, c ≠ '.') : removeDot s = s := by
  unfold removeDot
  rw [List.filter_eq_self]
  intro c hc
  simpa using h c hc

theorem removeDot_append (s t : Bytes) : removeDot (s ++ t) = removeDot s ++ removeDot t :=
  List.filter_append s t

theorem removeDot_dot_cons (t : Bytes) : removeDot ('.' :: t) = removeDot t := by
  unfold removeDot
  rw [List.filter_cons]
  simp

theorem round_cents (cents : Nat) : round (((cents : ℚ) / 100) * 100) = (cents : Int) := by
  rw [div_mul_cancel₀ _ (by norm_num : (100 : ℚ) ≠ 0)]
  exact_mod_cast round_natCast cents

theorem goFormatInt0_length_ge (w : Nat) (v : Int) : w ≤ (goFormatInt0 w v).length := by
  unfold goFormatInt0
  split
  · rw [List.length_cons, zeroPadLeft_length]
    omega
  · rw [zeroPadLeft_length]
    omega

theorem digitChars_subset_num : ∀ c ∈ digitChars, c ∈ '-' :: '.' :: digitChars :=
  fun _ hc => List.mem_cons_of_mem _ (List.mem_cons_of_mem _ hc)

theorem roundtrip_str {data s : Bytes} {b e : Nat}
    (hslice : slice data b e =
      toUpperStr (padTrunc (marshalFieldContent (e - b) (.str s)) (e - b)))
    (hlen : s.length ≤ e - b) (hts : trimSpace (toUpperStr s) = toUpperStr s) :
    unmarshalField data (.str s) b e = .ok (.str (toUpperStr s)) := by
  rw [unmarshalField_str, hslice]
  simp only [marshalFieldContent]
  rw [padTrunc_of_length_le hlen, toUpperStr_append, toUpperStr_replicate_space,
    trimSpace_append_spaces, hts]

theorem roundtrip_int {data : Bytes} {v : Int} {b e : Nat}
    (hslice : slice data b e =
      toUpperStr (padTrunc (marshalFieldContent (e - b) (.int v)) (e - b)))
    (h₁ : -9223372036854775808 ≤ v) (h₂ : v < 9223372036854775808)
    (hfit : (goFormatInt0 (e - b) v).length ≤ e - b) :
    unmarshalField data (.int v) b e = .ok (.int v) := by
  rw [unmarshalField_int, hslice]
  simp only [marshalFieldContent]
  have hge := goFormatInt0_length_ge (e - b) v
  rw [padTrunc_of_length_eq (by omega),
    toUpperStr_eq_self_of_num (fun c hc => mem_goFormatInt0 hc),
    trimSpace_eq_self_of_num (fun c hc => mem_goFormatInt0 hc),
    goParseInt64_goFormatInt0 _ h₁ h₂]

theorem roundtrip_uint {data : Bytes} {v : Nat} {b e : Nat}
    (hslice : slice data b e =
      toUpperStr (padTrunc (marshalFieldContent (e - b) (.uint v)) (e - b)))
    (h₁ : v < 18446744073709551616) (hfit : (natToDigits v).length ≤ e - b) :
    unmarshalField data (.uint v) b e = .ok (.uint v) := by
  rw [unmarshalField_uint, hslice]
  simp only [marshalFieldContent]
  rw [padTrunc_of_length_eq (by rw [zeroPadLeft_length]; omega),
    toUpperStr_eq_self_of_num (fun c hc => mem_zeroPadLeft_natToDigits hc),
    trimSpace_eq_self_of_num (fun c hc => mem_zeroPadLeft_natToDigits hc),
    goParseUint64_zeroPadLeft _ h₁]

theorem roundtrip_boolean {data : Bytes} {v : Bool} {b e : Nat} (hbe : b < e)
    (hslice : slice data b e =
      toUpperStr (padTrunc (marshalFieldContent (e - b) (.boolean v)) (e - b))) :
    unmarshalField data (.boolean v) b e = .ok (.boolean v) := by
  rw [unmarshalField_boolean, hslice]
  simp only [marshalFieldContent]
  cases v
  · rw [show ['0'] = natToDigits 0 from rfl, if_neg (by decide : ¬ (false = true))]
    rw [padTrunc_of_length_eq (by rw [zeroPadLeft_length]; simp [natToDigits, natToDigitsAux]; omega),
      toUpperStr_eq_self_of_num (fun c hc => mem_zeroPadLeft_natToDigits hc),
      trimSpace_eq_self_of_num (fun c hc => mem_zeroPadLeft_natToDigits hc),
      goParseInt64_zeroPadLeft _ (by norm_num)]
    simp
  · rw [show ['1'] = natToDigits 1 from rfl, if_pos rfl]
    rw [padTrunc_of_length_eq (by rw [zeroPadLeft_length]; simp [natToDigits, natToDigitsAux]; omega),
      toUpperStr_eq_self_of_num (fun c hc => mem_zeroPadLeft_natToDigits hc),
      trimSpace_eq_self_of_num (fun c hc => mem_zeroPadLeft_natToDigits hc),
      goParseInt64_zeroPadLeft _ (by norm_num)]
    simp

theorem goFormatFloat0_cents (n cents : Nat) :
    goFormatFloat0 n ((cents : ℚ) / 100) =
      List.replicate (n - ((natToDigits (cents / 100)).length + 3)) '0' ++
        (natToDigits (cents / 100) ++ '.' :: twoDigits (cents % 100)) := by
  simp only [goFormatFloat0, round_cents]
  rw [if_neg (by omega : ¬ ((cents : Int) < 0)), Int.toNat_natCast]
  unfold zeroPadLeft
  congr 2
  simp [twoDigits]

theorem removeDot_goFormatFloat0_cents (n cents : Nat) :
    removeDot (goFormatFloat0 n ((cents : ℚ) / 100)) =
      List.replicate (n - ((natToDigits (cents / 100)).length + 3)) '0' ++
        (natToDigits (cents / 100) ++ twoDigits (cents % 100)) := by
  rw [goFormatFloat0_cents, removeDot_append, removeDot_append, removeDot_dot_cons]
  rw [removeDot_eq_self (fun c hc => by
      rw [List.eq_of_mem_replicate hc]; decide),
    removeDot_eq_self (fun c hc =>
      (digitChars_signs c (mem_natToDigits _ c hc)).2.2.2),
    removeDot_eq_self (fun c hc => (digitChars_signs c (mem_twoDigits hc)).2.2.2)]

theorem takeDigitsAcc_twoDigits (m acc cnt : Nat) (hm : m < 100) :
    takeDigitsAcc (twoDigits m) acc cnt = ((acc * 10 + m / 10) * 10 + m % 10, cnt + 1 + 1, []) := by
  unfold twoDigits
  simp only [takeDigitsAcc, digitVal_digitCh (show m / 10 < 10 by omega),
    digitVal_digitCh (show m % 10 < 10 by omega)]

theorem goParseFloat_digits_frac (k : Nat) (d m : Nat) (hm : m < 100) :
    goParseFloat (('0' :: (List.replicate k '0' ++ natToDigits d)) ++ '.' :: twoDigits m) =
      some ((d : ℚ) + (m : ℚ) / 100) := by
  have hs : ('0' :: (List.replicate k '0' ++ natToDigits d)) ++ '.' :: twoDigits m =
      List.replicate (k + 1) '0' ++ (natToDigits d ++ '.' :: twoDigits m) := by
    rw [List.replicate_succ]
    simp [List.cons_append, List.append_assoc]
  unfold goParseFloat
  rw [if_neg (by
      simp only [List.cons_append, List.head?_cons]
      intro h
      exact absurd (Option.some.inj h) (by decide)),
    if_neg (by
      simp only [List.cons_append, List.head?_cons]
      intro h
      exact absurd (Option.some.inj h) (by decide))]
  rw [hs]
  have hdot : digitVal '.' = none := by decide
  have hscrut : takeDigitsAcc
      (List.replicate (k + 1) '0' ++ (natToDigits d ++ '.' :: twoDigits m)) 0 0 =
      (d, k + 1 + (natToDigits d).length, '.' :: twoDigits m) := by
    rw [takeDigitsAcc_replicate_zero, takeDigitsAcc_append_natToDigits]
    simp only [takeDigitsAcc, hdot]
    norm_num
  have harith : (0 * 10 + m / 10) * 10 + m % 10 = m := by omega
  unfold goParseFloatCore
  simp only [hscrut, takeDigitsAcc_twoDigits m 0 0 hm, harith]
  rw [if_pos ⟨trivial, by omega⟩]
  norm_num

theorem cents_div_add_mod (cents : Nat) :
    ((cents / 100 : Nat) : ℚ) + ((cents % 100 : Nat) : ℚ) / 100 = (cents : ℚ) / 100 := by
  field_simp
  norm_cast
  omega

theorem roundtrip_float {data : Bytes} {b e : Nat} {cents : Nat}
    (hslice : slice data b e =
      toUpperStr (padTrunc (marshalFieldContent (e - b) (.float ((cents : ℚ) / 100))) (e - b)))
    (hfit : (natToDigits (cents / 100)).length + 3 ≤ e - b) :
    unmarshalField data (.float ((cents : ℚ) / 100)) b e =
      .ok (.float ((cents : ℚ) / 100)) := by
  have hLD := length_natToDigits_pos (cents / 100)
  have hcontent : marshalFieldContent (e - b) (.float ((cents : ℚ) / 100)) =
      '0' :: (List.replicate (e - b - ((natToDigits (cents / 100)).length + 3)) '0' ++
        (natToDigits (cents / 100) ++ twoDigits (cents % 100))) := by
    simp only [marshalFieldContent, removeDot_goFormatFloat0_cents]
  have hclen : ('0' :: (List.replicate (e - b - ((natToDigits (cents / 100)).length + 3)) '0' ++
      (natToDigits (cents / 100) ++ twoDigits (cents % 100)))).length = e - b := by
    simp [twoDigits]
    omega
  have hmem : ∀ c ∈ '0' :: (List.replicate (e - b - ((natToDigits (cents / 100)).length + 3)) '0' ++
      (natToDigits (cents / 100) ++ twoDigits (cents % 100))), c ∈ '-' :: '.' :: digitChars := by
    intro c hc
    rcases List.mem_cons.mp hc with rfl | hc
    · decide
    · rcases List.mem_append.mp hc with hc | hc
      · rw [List.eq_of_mem_replicate hc]; decide
      · rcases List.mem_append.mp hc with hc | hc
        · exact digitChars_subset_num _ (mem_natToDigits _ _ hc)
        · exact digitChars_subset_num _ (mem_twoDigits hc)
  rw [unmarshalField_float, hslice, hcontent, padTrunc_of_length_eq hclen,
    toUpperStr_eq_self_of_num hmem, trimSpace_eq_self_of_num hmem, hclen]
  rw [if_pos (show 2 < e - b by omega)]
  have hsplit : '0' :: (List.replicate (e - b - ((natToDigits (cents / 100)).length + 3)) '0' ++
      (natToDigits (cents / 100) ++ twoDigits (cents % 100))) =
      ('0' :: (List.replicate (e - b - ((natToDigits (cents / 100)).length + 3)) '0' ++
        natToDigits (cents / 100))) ++ twoDigits (cents % 100) := by
    simp [List.cons_append, List.append_assoc]
  have hPlen : ('0' :: (List.replicate (e - b - ((natToDigits (cents / 100)).length + 3)) '0' ++
      natToDigits (cents / 100))).length = e - b - 2 := by
    simp
    omega
  rw [hsplit, List.take_left' hPlen, List.drop_left' hPlen,
    goParseFloat_digits_frac _ _ _ (by omega)]
  rw [cents_div_add_mod]

/-! ### Record decoding -/

theorem unmarshalStruct_cons_valid {data : Bytes} {f : FieldSpec} {fs : List FieldSpec}
    (h₁ : f.b < f.e) (h₂ : f.e ≤ data.length) (h₃ : f.e < 9223372036854775808) :
    unmarshalStruct data (specFields (f :: fs)) =
      match unmarshalField data f.value f.b f.e with
      | .error err => .error (.unmarshalFieldError f.name (slice data f.b f.e) err)
      | .ok v2 => (unmarshalStruct data (specFields fs)).map
          (({ f.toStructField with value := v2 }) :: ·) := by
  simp only [specFields, List.map_cons, unmarshalStruct, parseCNABFieldTag_valid h₁ h₂ h₃]
  rw [if_neg (by omega)]
  simp only [FieldSpec.toStructField, Int.toNat_natCast]
  rfl

theorem unmarshalStruct_roundtrip : ∀ (fs : List FieldSpec) (data : Bytes),
    (∀ f ∈ fs, f.Valid data.length) →
    (∀ f ∈ fs, NonLossy (f.e - f.b) f.value) →
    (∀ f ∈ fs, slice data f.b f.e =
      toUpperStr (padTrunc (marshalFieldContent (f.e - f.b) f.value) (f.e - f.b))) →
    unmarshalStruct data (specFields fs) = .ok ((specFields fs).map normalizeField) := by
  intro fs
  induction fs with
  | nil => intro data _ _ _; rfl
  | cons f fs ih =>
    intro data hv hnl hs
    obtain ⟨hbe, he, hbnd⟩ := hv f (List.mem_cons_self f fs)
    rw [unmarshalStruct_cons_valid hbe he hbnd]
    have hfield : unmarshalField data f.value f.b f.e = .ok (normalizeValue f.value) := by
      have hsl := hs f (List.mem_cons_self f fs)
      have hn := hnl f (List.mem_cons_self f fs)
      cases hvv : f.value with
      | str s =>
        rw [hvv] at hsl hn
        exact roundtrip_str hsl hn.1 hn.2
      | boolean bb =>
        rw [hvv] at hsl
        exact roundtrip_boolean hbe hsl
      | int vi =>
        rw [hvv] at hsl hn
        exact roundtrip_int hsl hn.1 hn.2.1 hn.2.2
      | uint vu =>
        rw [hvv] at hsl hn
        exact roundtrip_uint hsl hn.1 hn.2
      | float q =>
        rw [hvv] at hsl hn
        obtain ⟨cents, rfl, hfit⟩ := hn
        exact roundtrip_float hsl hfit
      | custom co =>
        rw [hvv] at hn
        exact absurd hn (by simp [NonLossy])
    rw [hfield,
      ih data (fun g hg => hv g (List.mem_cons_of_mem f hg))
        (fun g hg => hnl g (List.mem_cons_of_mem f hg))
        (fun g hg => hs g (List.mem_cons_of_mem f hg))]
    simp [specFields, normalizeField, FieldSpec.toStructField, Except.map]

/-! ### File composition: option extraction and the final control character -/

theorem extractOptions_go : ∀ (vs : List MarshalV) (o : MarshalOptions) (acc : List MarshalV),
    vs.foldl
      (fun acc v =>
        match v with
        | .optionFn enabled => ({ addFinalControlCharacter := enabled }, acc.2)
        | _ => (acc.1, acc.2 ++ [v]))
      (o, acc) =
    ({ addFinalControlCharacter := lastEnabled vs o.addFinalControlCharacter },
      acc ++ vs.filter (fun v => !v.isOptionFn)) := by
  intro vs
  induction vs with
  | nil =>
    intro o acc
    simp [lastEnabled]
  | cons v vs ih =>
    intro o acc
    cases v with
    | optionFn b =>
      rw [List.foldl_cons, ih]
      simp [lastEnabled, MarshalV.isOptionFn]
    | struct fields =>
      rw [List.foldl_cons, ih]
      simp [lastEnabled, MarshalV.isOptionFn]
    | slice items =>
      rw [List.foldl_cons, ih]
      simp [lastEnabled, MarshalV.isOptionFn]
    | other =>
      rw [List.foldl_cons, ih]
      simp [lastEnabled, MarshalV.isOptionFn]

theorem extractOptions_eq (vs : List MarshalV) :
    extractOptions vs =
      ({ addFinalControlCharacter := lastEnabled vs true },
        vs.filter (fun v => !v.isOptionFn)) := by
  have h := extractOptions_go vs { addFinalControlCharacter := true } []
  simpa [extractOptions] using h

theorem lastEnabled_of_no_option : ∀ (vs : List MarshalV) (dflt : Bool),
    (∀ v ∈ vs, v.isOptionFn = false) → lastEnabled vs dflt = dflt := by
  intro vs
  induction vs with
  | nil => intro dflt _; rfl
  | cons v vs ih =>
    intro dflt h
    cases v with
    | optionFn b => exact absurd (h _ (List.mem_cons_self _ _)) (by simp [MarshalV.isOptionFn])
    | struct fields => exact ih dflt (fun x hx => h x (List.mem_cons_of_mem _ hx))
    | slice items => exact ih dflt (fun x hx => h x (List.mem_cons_of_mem _ hx))
    | other => exact ih dflt (fun x hx => h x (List.mem_cons_of_mem _ hx))

theorem marshal_eq (lineSize : Nat) (vs : List MarshalV) {body : Bytes}
    (h : marshalLines lineSize (vs.filter (fun v => !v.isOptionFn)) = .ok body) :
    marshal lineSize vs = .ok (body ++
      (if lastEnabled vs true = true ∧
          1 < (vs.filter (fun v => !v.isOptionFn)).length ∧ body ≠ []
        then finalControlCharacter else [])) := by
  unfold marshal
  rw [extractOptions_eq]
  simp only [h]
  by_cases hc : lastEnabled vs true = true ∧
      1 < (vs.filter (fun v => !v.isOptionFn)).length ∧ body ≠ []
  · rw [if_pos hc, if_pos hc]
  · rw [if_neg hc, if_neg hc, List.append_nil]

/-! ### Prefix dispatch: grouping characterisation -/

theorem appendGroup_nil (g : Option Bytes) : appendGroup g [] = g := by
  cases g <;> rfl

theorem intercalate_single (sep a : Bytes) : List.intercalate sep [a] = a := by
  simp [List.intercalate, List.intersperse_singleton]

theorem intercalate_cons₂ (sep a b : Bytes) (l : List Bytes) :
    List.intercalate sep (a :: b :: l) = a ++ sep ++ List.intercalate sep (b :: l) := by
  simp only [List.intercalate, List.intersperse_cons_cons, List.flatten_cons]
  simp [List.append_assoc]

theorem foldl_addLine : ∀ (lines : List Bytes) (gb : Bytes → Option Bytes) (id : Bytes),
    (lines.foldl addLine gb) id =
      appendGroup (gb id) (lines.filter (fun l => !l.isEmpty && List.isPrefixOf id l)) := by
  intro lines
  induction lines with
  | nil =>
    intro gb id
    rw [List.foldl_nil, List.filter_nil, appendGroup_nil]
  | cons l ls ih =>
    intro lines_gb id
    rw [List.foldl_cons, ih, List.filter_cons]
    by_cases hc : (!l.isEmpty && List.isPrefixOf id l) = true
    · rw [if_pos hc]
      have hp : l ≠ [] ∧ List.isPrefixOf id l = true := by
        simpa [List.isEmpty_iff] using hc
      unfold addLine
      rw [if_pos hp]
      cases hgb : lines_gb id with
      | none => rfl
      | some g => rfl
    · rw [if_neg hc]
      have hstep : addLine lines_gb l id = lines_gb id := by
        unfold addLine
        rw [if_neg (by
          intro hp
          apply hc
          rw [Bool.and_eq_true]
          refine ⟨?_, hp.2⟩
          simpa [List.isEmpty_iff] using hp.1)]
      rw [hstep]

theorem appendGroup_some_eq : ∀ (ms : List Bytes) (g : Bytes),
    appendGroup (some g) ms = some (List.intercalate lineBreak (g :: ms)) := by
  intro ms
  induction ms with
  | nil =>
    intro g
    rw [appendGroup_nil, intercalate_single]
  | cons l ls ih =>
    intro g
    show appendGroup (some (g ++ lineBreak ++ l)) ls = _
    rw [ih]
    congr 1
    rw [intercalate_cons₂]
    cases ls with
    | nil => rw [intercalate_single, intercalate_single]
    | cons l2 ls2 =>
      rw [intercalate_cons₂, intercalate_cons₂]
      simp [List.append_assoc]

theorem buildGroups_eq (data id : Bytes) :
    buildGroups data id =
      (if ((splitCRLF data).filter (fun l => !l.isEmpty && List.isPrefixOf id l)).isEmpty
        then none
        else some (List.intercalate lineBreak
          ((splitCRLF data).filter (fun l => !l.isEmpty && List.isPrefixOf id l)))) := by
  unfold buildGroups
  rw [foldl_addLine]
  cases hM : (splitCRLF data).filter (fun l => !l.isEmpty && List.isPrefixOf id l) with
  | nil => rfl
  | cons m ms =>
    show appendGroup (some m) ms = _
    rw [appendGroup_some_eq]
    simp

theorem unmarshalValue_mapper (data : Bytes) (entries : List (Bytes × UnmarshalV)) :
    unmarshalValue data (.mapper entries) =
      (unmarshalMapperEntries (buildGroups data) entries).map .mapper := by
  simp [unmarshalValue]

theorem unmarshalMapperEntries_nil (gb : Bytes → Option Bytes) :
    unmarshalMapperEntries gb [] = .ok [] := by
  simp [unmarshalMapperEntries]

theorem unmarshalMapperEntries_cons (gb : Bytes → Option Bytes) (id : Bytes)
    (dest : UnmarshalV) (rest : List (Bytes × UnmarshalV)) :
    unmarshalMapperEntries gb ((id, dest) :: rest) =
      match gb id with
      | none => (unmarshalMapperEntries gb rest).map ((id, dest) :: ·)
      | some lines =>
        match unmarshalValue lines dest with
        | .error err => .error err
        | .ok dest2 => (unmarshalMapperEntries gb rest).map ((id, dest2) :: ·) := by
  simp [unmarshalMapperEntries]

theorem unmarshalMapperEntries_cons_none {gb : Bytes → Option Bytes} {id : Bytes}
    {dest : UnmarshalV} {rest : List (Bytes × UnmarshalV)} (hid : gb id = none) :
    unmarshalMapperEntries gb ((id, dest) :: rest) =
      (unmarshalMapperEntries gb rest).map ((id, dest) :: ·) := by
  rw [unmarshalMapperEntries_cons, hid]

theorem unmarshalMapperEntries_cons_some {gb : Bytes → Option Bytes} {id : Bytes}
    {dest : UnmarshalV} {rest : List (Bytes × UnmarshalV)} {lines : Bytes}
    (hid : gb id = some lines) :
    unmarshalMapperEntries gb ((id, dest) :: rest) =
      match unmarshalValue lines dest with
      | .error err => .error err
      | .ok dest2 => (unmarshalMapperEntries gb rest).map ((id, dest2) :: ·) := by
  rw [unmarshalMapperEntries_cons, hid]

theorem unmarshalMapperEntries_skip {gb : Bytes → Option Bytes} {id : Bytes}
    {dest : UnmarshalV} {rest rest' : List (Bytes × UnmarshalV)} (hid : gb id = none)
    (h : unmarshalMapperEntries gb rest = .ok rest') :
    unmarshalMapperEntries gb ((id, dest) :: rest) = .ok ((id, dest) :: rest') := by
  rw [unmarshalMapperEntries_cons_none hid, h]
  rfl

theorem unmarshalMapperEntries_append {gb : Bytes → Option Bytes} :
    ∀ {xs : List (Bytes × UnmarshalV)} {ys xs' ys' : List (Bytes × UnmarshalV)},
    unmarshalMapperEntries gb xs = .ok xs' → unmarshalMapperEntries gb ys = .ok ys' →
    unmarshalMapperEntries gb (xs ++ ys) = .ok (xs' ++ ys') := by
  intro xs
  induction xs with
  | nil =>
    intro ys xs' ys' hx hy
    rw [unmarshalMapperEntries_nil] at hx
    cases hx
    simpa using hy
  | cons p xs ih =>
    intro ys xs' ys' hx hy
    obtain ⟨id, dest⟩ := p
    rw [List.cons_append]
    cases hgb : gb id with
    | none =>
      rw [unmarshalMapperEntries_cons_none hgb] at hx
      rw [unmarshalMapperEntries_cons_none hgb]
      cases hrec : unmarshalMapperEntries gb xs with
      | error err => rw [hrec] at hx; exact absurd hx (by simp [Except.map])
      | ok xs₀ =>
        rw [hrec] at hx
        simp only [Except.map] at hx
        cases hx
        rw [ih hrec hy]
        rfl
    | some lines =>
      rw [unmarshalMapperEntries_cons_some hgb] at hx
      rw [unmarshalMapperEntries_cons_some hgb]
      cases hval : unmarshalValue lines dest with
      | error err => rw [hval] at hx; exact absurd hx (by simp)
      | ok dest2 =>
        rw [hval] at hx
        cases hrec : unmarshalMapperEntries gb xs with
        | error err => rw [hrec] at hx; exact absurd hx (by simp [Except.map])
        | ok xs₀ =>
          rw [hrec] at hx
          simp only [Except.map] at hx
          cases hx
          rw [ih hrec hy]
          rfl

/-! ### The claims -/

theorem float5030_content :
    marshalFieldContent (60 - 50) (.float (5030 / 100 : ℚ)) = "0000005030".data := by
  show '0' :: removeDot (goFormatFloat0 (60 - 50) ((5030 : ℚ) / 100)) = _
  rw [show ((5030 : ℚ) / 100) = (((5030 : ℕ) : ℚ) / 100) by norm_num,
    removeDot_goFormatFloat0_cents]
  decide

set_option maxRecDepth 16384 in
/-- Claim C1, counterexample: encoding the float64 value 50.30 into the range
[50,60) of a 240-byte line does not write `"0000050300"`; the bytes actually
written are `"0000005030"` (Go pads `"0000050.30"` to width ten, removes the
dot and prepends one `'0'`). -/
theorem C1_counterexample :
    slice (marshalField (List.replicate 240 ' ') (.float (5030 / 100 : ℚ)) 50 60) 50 60 ≠
      "0000050300".data ∧
    slice (marshalField (List.replicate 240 ' ') (.float (5030 / 100 : ℚ)) 50 60) 50 60 =
      "0000005030".data := by
  have hfield : marshalField (List.replicate 240 ' ') (.float (5030 / 100 : ℚ)) 50 60 =
      setFieldContent (List.replicate 240 ' ') "0000005030".data 50 60 := by
    unfold marshalField
    rw [float5030_content]
  rw [hfield]
  constructor
  · decide
  · decide

set_option maxRecDepth 16384 in
/-- Claim C1 (amended): encoding a float64 (decimal) field with declared
range 50,60 and value 50.30 writes exactly the 10 bytes `"0000005030"` into
positions [50,60) of the line buffer, leaving every other position
unchanged. -/
theorem C1_amended :
    marshalField (List.replicate 240 ' ') (.float (5030 / 100 : ℚ)) 50 60 =
      List.replicate 50 ' ' ++ "0000005030".data ++ List.replicate 180 ' ' := by
  have hfield : marshalField (List.replicate 240 ' ') (.float (5030 / 100 : ℚ)) 50 60 =
      setFieldContent (List.replicate 240 ' ') "0000005030".data 50 60 := by
    unfold marshalField
    rw [float5030_content]
  rw [hfield]
  decide

/-- Claim C2, counterexample: decoding the 10-byte decimal field content
`"0000050300"` assigns 503.0, not 50.30 — the dot is re-inserted two digits
from the right, giving `"00000503.00"`. -/
theorem C2_counterexample :
    unmarshalField "0000050300".data (.float 0) 0 10 = .ok (.float 503) ∧
    (503 : ℚ) ≠ 5030 / 100 := by
  constructor
  · have hp : unmarshalField "0000050300".data (.float 0) 0 10 =
        .ok (.float (((503 : ℕ) : ℚ) + ((0 : ℕ) : ℚ) / 10 ^ (2 : ℕ))) := rfl
    rw [hp]
    norm_num
  · norm_num

/-- Claim C2 (amended): decoding the 10-byte decimal field content
`"0000050300"` assigns 503.0 (the decoder re-inserts a decimal point two
digits from the right of the trimmed string, or treats it as `0.<digits>`
when the trimmed string has at most 2 characters, and parses the result);
the content that decodes to 50.30 is `"0000005030"`, the encoding of
50.30. -/
theorem C2_amended :
    unmarshalField "0000050300".data (.float 0) 0 10 = .ok (.float 503) ∧
    unmarshalField "0000005030".data (.float 0) 0 10 = .ok (.float (5030 / 100)) ∧
    unmarshalField "        12".data (.float 0) 0 10 = .ok (.float (12 / 100)) := by
  refine ⟨?_, ?_, ?_⟩
  · have hp : unmarshalField "0000050300".data (.float 0) 0 10 =
        .ok (.float (((503 : ℕ) : ℚ) + ((0 : ℕ) : ℚ) / 10 ^ (2 : ℕ))) := rfl
    rw [hp]
    norm_num
  · have hp : unmarshalField "0000005030".data (.float 0) 0 10 =
        .ok (.float (((50 : ℕ) : ℚ) + ((30 : ℕ) : ℚ) / 10 ^ (2 : ℕ))) := rfl
    rw [hp]
    norm_num
  · have hp : unmarshalField "        12".data (.float 0) 0 10 =
        .ok (.float (((0 : ℕ) : ℚ) + ((12 : ℕ) : ℚ) / 10 ^ (2 : ℕ))) := rfl
    rw [hp]
    norm_num

/-- Claim C4, counterexample: encoding the signed integer -42 into a width-5
field writes `"-0042"`, which contains the sign character `'-'` — a sign is
emitted for negative values. -/
theorem C4_counterexample :
    slice (marshalField (List.replicate 5 ' ') (.int (-42)) 0 5) 0 5 = "-0042".data ∧
    '-' ∈ slice (marshalField (List.replicate 5 ' ') (.int (-42)) 0 5) 0 5 := by
  constructor
  · decide
  · decide

/-- Claim C4 (amended): for every signed-integer field, encoding a
non-negative value emits only decimal digits zero-padded on the left to the
field width; a negative value emits a leading `'-'` sign followed by
zero-padded digits (the sign counts toward the width). -/
theorem C4_amended (data : Bytes) (v : Int) (b e : Nat) (hbe : b < e) (he : e ≤ data.length) :
    (0 ≤ v → ∀ c ∈ slice (marshalField data (.int v) b e) b e, c ∈ digitChars) ∧
    (v < 0 → (slice (marshalField data (.int v) b e) b e).head? = some '-') := by
  have hge := goFormatInt0_length_ge (e - b) v
  have hslice : slice (marshalField data (.int v) b e) b e =
      toUpperStr (padTrunc (marshalFieldContent (e - b) (.int v)) (e - b)) :=
    slice_setFieldContent_self data (marshalFieldContent (e - b) (.int v)) (le_of_lt hbe) he
  have hpt : padTrunc (goFormatInt0 (e - b) v) (e - b) =
      (goFormatInt0 (e - b) v).take (e - b) := by
    unfold padTrunc
    split
    · rfl
    · rw [show e - b - (goFormatInt0 (e - b) v).length = 0 by omega, List.replicate,
        List.append_nil, List.take_of_length_le (by omega)]
  constructor
  · intro hv c hc
    rw [hslice] at hc
    simp only [marshalFieldContent] at hc
    rw [hpt] at hc
    obtain ⟨c₀, hc₀, rfl⟩ := List.mem_map.mp hc
    have hc₀m : c₀ ∈ goFormatInt0 (e - b) v := List.take_subset _ _ hc₀
    rw [goFormatInt0, if_neg (by omega)] at hc₀m
    have hd : c₀ ∈ digitChars := by
      rcases mem_zeroPadLeft hc₀m with h | h
      · rw [h]; decide
      · exact mem_natToDigits _ _ h
    rw [(digitChars_facts c₀ hd).1]
    exact hd
  · intro hv
    rw [hslice]
    simp only [marshalFieldContent]
    rw [hpt, goFormatInt0, if_pos hv]
    obtain ⟨m, hm⟩ : ∃ m, e - b = m + 1 := ⟨e - b - 1, by omega⟩
    rw [hm, List.take_succ_cons]
    simp [toUpperStr]

/-- Witness for the amended C4 at a concrete input: the slice written for
the value -42 starts with the sign character. -/
theorem C4_amended_witness :
    (slice (marshalField (List.replicate 5 ' ') (.int (-42)) 0 5) 0 5).head? = some '-' :=
  (C4_amended (List.replicate 5 ' ') (-42) 0 5 (by decide) (by decide)).2 (by decide)

/-- Claim C9, counterexample: the bytes returned by a custom codec's encode
hook are uppercased by the terminal uppercasing step, so the hook output's
own casing is not preserved: the hook output `"ab"` lands in the line as
`"AB"`. -/
theorem C9_counterexample :
    slice (marshalField (List.replicate 5 ' ') (.custom "ab".data) 0 5) 0 5 = "AB   ".data ∧
    "AB   ".data ≠ "ab".data ++ List.replicate 3 ' ' := by
  constructor
  · decide
  · decide

/-- Claim C9 (amended): for every custom-codec field, the bytes returned by
the value's encode hook are placed into the field's range by exactly the
same rule as a text field — truncated or space-padded on the right to the
field width and then uppercased by the terminal uppercasing step. -/
theorem C9_amended (data out : Bytes) (b e : Nat) (hbe : b ≤ e) (he : e ≤ data.length) :
    marshalField data (.custom out) b e = marshalField data (.str out) b e ∧
    slice (marshalField data (.custom out) b e) b e = toUpperStr (padTrunc out (e - b)) :=
  ⟨rfl, slice_setFieldContent_self data _ hbe he⟩

/-- Witness for the amended C9 at a concrete input. -/
theorem C9_amended_witness :
    slice (marshalField (List.replicate 5 ' ') (.custom "ab".data) 0 5) 0 5 =
      toUpperStr (padTrunc "ab".data 5) :=
  (C9_amended (List.replicate 5 ' ') "ab".data 0 5 (by decide) (by decide)).2

/-- Claim C3, counterexample: the round trip uppercases and also trims text,
so a text field whose content starts with a space (but fits its field, no
truncation) does not come back as its uppercased self: `" A"` in a width-3
field encodes to `" A "` and decodes to `"A"`, not `" A"`. -/
theorem C3_counterexample :
    marshalLine 3 (.struct (specFields [⟨"A".data, 0, 3, .str " A".data⟩])) = .ok " A ".data ∧
    unmarshalStruct " A ".data (specFields [⟨"A".data, 0, 3, .str " A".data⟩]) =
      .ok [⟨"A".data, mkTag 0 3, .str "A".data⟩] ∧
    (specFields [⟨"A".data, 0, 3, .str " A".data⟩]).map normalizeField =
      [⟨"A".data, mkTag 0 3, .str " A".data⟩] ∧
    FieldValue.str "A".data ≠ .str " A".data := by
  refine ⟨rfl, rfl, rfl, by decide⟩

/-- Claim C3 (amended): for every record whose field ranges are valid and
pairwise disjoint, using only non-lossy kinds under the per-kind conditions
of `NonLossy` (text fits its field and survives trimming, integers fit their
machine type and field, decimals are non-negative exact multiples of 0.01
that fit their field; no custom codecs), decoding the encoding of the record
yields the record with its text fields uppercased. -/
theorem C3_amended_roundtrip (lineWidth : Nat) (fs : List FieldSpec)
    (hv : ∀ f ∈ fs, f.Valid lineWidth) (hd : List.Pairwise FieldSpec.Disj fs)
    (hnl : ∀ f ∈ fs, NonLossy (f.e - f.b) f.value) :
    ∃ out, marshalLine lineWidth (.struct (specFields fs)) = .ok out ∧
      unmarshalStruct out (specFields fs) = .ok ((specFields fs).map normalizeField) := by
  have hv' : ∀ f ∈ fs, f.Valid (List.replicate lineWidth ' ' : Bytes).length := by
    intro f hf
    simpa [FieldSpec.Valid] using hv f hf
  obtain ⟨out, hout, hlen, _⟩ := marshalStruct_spec fs (List.replicate lineWidth ' ') hv'
  have hlen' : out.length = lineWidth := by simpa using hlen
  refine ⟨out, by simpa [marshalLine] using hout, ?_⟩
  apply unmarshalStruct_roundtrip fs out
  · intro f hf
    have hvf := hv f hf
    rw [FieldSpec.Valid] at hvf ⊢
    omega
  · exact hnl
  · exact marshalStruct_slice fs (List.replicate lineWidth ' ') out hv' hd hout

/-- Witness for the amended C3 at a concrete record with one field of each
non-lossy kind, line width 15. -/
theorem C3_amended_roundtrip_witness :
    unmarshalStruct "00042AB   00071".data
      (specFields [⟨"A".data, 0, 5, .int 42⟩, ⟨"B".data, 5, 10, .str "AB".data⟩,
        ⟨"D".data, 10, 14, .uint 7⟩, ⟨"E".data, 14, 15, .boolean true⟩]) =
      .ok ((specFields [⟨"A".data, 0, 5, .int 42⟩, ⟨"B".data, 5, 10, .str "AB".data⟩,
        ⟨"D".data, 10, 14, .uint 7⟩, ⟨"E".data, 14, 15, .boolean true⟩]).map normalizeField) := by
  obtain ⟨out, h1, h2⟩ := C3_amended_roundtrip 15
    [⟨"A".data, 0, 5, .int 42⟩, ⟨"B".data, 5, 10, .str "AB".data⟩,
      ⟨"D".data, 10, 14, .uint 7⟩, ⟨"E".data, 14, 15, .boolean true⟩]
    (by intro f hf; fin_cases hf <;> exact ⟨by norm_num, by norm_num, by norm_num⟩)
    (by decide)
    (by
      intro f hf
      fin_cases hf
      · exact ⟨by norm_num, by norm_num, by decide⟩
      · exact ⟨by decide, by decide⟩
      · exact ⟨by norm_num, by decide⟩
      · trivial)
  have hco : marshalLine 15 (.struct (specFields [⟨"A".data, 0, 5, .int 42⟩,
      ⟨"B".data, 5, 10, .str "AB".data⟩, ⟨"D".data, 10, 14, .uint 7⟩,
      ⟨"E".data, 14, 15, .boolean true⟩])) = .ok "00042AB   00071".data := rfl
  rw [hco] at h1
  cases h1
  exact h2

/-- Claim C5: the final control byte (0x1A) is appended to the composed
output exactly when the option is enabled (which it is by default, when no
option value appears among the inputs), more than one top-level input
remains after extracting the configuration values, and the accumulated
output is non-empty. -/
theorem C5_final_control (lineSize : Nat) (vs : List MarshalV) (body : Bytes)
    (h : marshalLines lineSize (vs.filter (fun v => !v.isOptionFn)) = .ok body) :
    marshal lineSize vs = .ok (body ++
      (if lastEnabled vs true = true ∧
          1 < (vs.filter (fun v => !v.isOptionFn)).length ∧ body ≠ []
        then finalControlCharacter else [])) ∧
    ((∀ v ∈ vs, v.isOptionFn = false) → lastEnabled vs true = true) :=
  ⟨marshal_eq lineSize vs h, fun hno => lastEnabled_of_no_option vs true hno⟩

/-- Witness for C5: two structs, no option value — the control byte is
appended after the two lines. -/
theorem C5_final_control_witness :
    marshal 2 [MarshalV.struct (specFields [⟨"A".data, 0, 1, .boolean true⟩]),
      MarshalV.struct []] = .ok "1 \r\n  \x1a".data := by
  have h := (C5_final_control 2 [MarshalV.struct (specFields [⟨"A".data, 0, 1, .boolean true⟩]),
      MarshalV.struct []] "1 \r\n  ".data rfl).1
  rw [h, if_pos ⟨rfl, by decide, by decide⟩]
  rfl

/-- Claim C6: resolving a numeric field tag `"begin,end"` (both components
in the `int` range) fails with the range error exactly when `begin < 0`,
`end < begin`, or `end > lineWidth`; in particular `end = lineWidth` is
accepted. -/
theorem C6_invalid_range (b e : Int) (size : Nat)
    (hb₁ : -9223372036854775808 ≤ b) (hb₂ : b < 9223372036854775808)
    (he₁ : -9223372036854775808 ≤ e) (he₂ : e < 9223372036854775808) :
    parseCNABFieldTag (mkTag b e) size = .error .invalidFieldTagRange ↔
      (b < 0 ∨ e < b ∨ (size : Int) < e) := by
  rw [parseCNABFieldTag_mkTag b e size hb₁ hb₂ he₁ he₂]
  constructor
  · intro h
    by_contra hc
    rw [if_neg hc] at h
    exact absurd h (by simp)
  · intro h
    rw [if_pos h]

/-- Witness for C6 at the boundary inputs of the claim: `end = lineWidth` is
valid while `end = lineWidth + 1`, `begin = -1` and `end < begin` each fail
with the range error. -/
theorem C6_invalid_range_witness :
    parseCNABFieldTag (mkTag 0 240) 240 ≠ .error .invalidFieldTagRange ∧
    parseCNABFieldTag (mkTag 0 241) 240 = .error .invalidFieldTagRange ∧
    parseCNABFieldTag (mkTag (-1) 20) 240 = .error .invalidFieldTagRange ∧
    parseCNABFieldTag (mkTag 20 10) 240 = .error .invalidFieldTagRange := by
  refine ⟨?_, ?_, ?_, ?_⟩
  · intro h
    have hc := (C6_invalid_range 0 240 240 (by norm_num) (by norm_num) (by norm_num)
      (by norm_num)).mp h
    norm_num at hc
  · exact (C6_invalid_range 0 241 240 (by norm_num) (by norm_num) (by norm_num)
      (by norm_num)).mpr (by norm_num)
  · exact (C6_invalid_range (-1) 20 240 (by norm_num) (by norm_num) (by norm_num)
      (by norm_num)).mpr (by norm_num)
  · exact (C6_invalid_range 20 10 240 (by norm_num) (by norm_num) (by norm_num)
      (by norm_num)).mpr (by norm_num)

/-- Claim C7: in prefix dispatch, the group accumulated for a key is exactly
the non-empty lines of the split stream that have the key as a byte-prefix,
in their original order, re-joined with the line break marker (so a line is
appended to every matching key's group, with no first-match-wins
short-circuit), and the mapper hands each accumulated group to its key's
destination. -/
theorem C7_prefix_dispatch (data id : Bytes) (entries : List (Bytes × UnmarshalV)) :
    (buildGroups data id =
      if ((splitCRLF data).filter (fun l => !l.isEmpty && List.isPrefixOf id l)).isEmpty
      then none
      else some (List.intercalate lineBreak
        ((splitCRLF data).filter (fun l => !l.isEmpty && List.isPrefixOf id l)))) ∧
    unmarshalValue data (.mapper entries) =
      (unmarshalMapperEntries (buildGroups data) entries).map .mapper :=
  ⟨buildGroups_eq data id, unmarshalValue_mapper data entries⟩

/-- Claim C8: for every record whose field descriptors are all valid
(`begin < end ≤ lineWidth`), encoding a single record succeeds and returns a
buffer of exactly `lineWidth` bytes, with positions outside every field
range still holding the space the buffer was filled with. -/
theorem C8_encode_length (lineWidth : Nat) (fs : List FieldSpec)
    (hv : ∀ f ∈ fs, f.Valid lineWidth) :
    ∃ out, marshalLine lineWidth (.struct (specFields fs)) = .ok out ∧
      out.length = lineWidth ∧
      ∀ i, i < lineWidth → (∀ f ∈ fs, i < f.b ∨ f.e ≤ i) → out[i]? = some ' ' := by
  have hv' : ∀ f ∈ fs, f.Valid (List.replicate lineWidth ' ' : Bytes).length := by
    intro f hf
    simpa [FieldSpec.Valid] using hv f hf
  obtain ⟨out, hout, hlen, houtside⟩ := marshalStruct_spec fs (List.replicate lineWidth ' ') hv'
  refine ⟨out, by simpa [marshalLine] using hout, by simpa using hlen, ?_⟩
  intro i hi hf
  rw [houtside i hf]
  simp [List.getElem?_replicate, hi]

/-- Witness for C8: a one-field record at line width 4 produces a 4-byte
line with spaces outside the field. -/
theorem C8_encode_length_witness :
    marshalLine 4 (.struct (specFields [⟨"A".data, 1, 2, .boolean true⟩])) = .ok " 1  ".data ∧
    (" 1  ".data : Bytes).length = 4 := by
  obtain ⟨out, h1, h2, _⟩ := C8_encode_length 4 [⟨"A".data, 1, 2, .boolean true⟩]
    (by intro f hf; fin_cases hf; exact ⟨by norm_num, by norm_num, by norm_num⟩)
  have hco : marshalLine 4 (.struct (specFields [⟨"A".data, 1, 2, .boolean true⟩])) =
      .ok " 1  ".data := rfl
  refine ⟨hco, ?_⟩
  rw [hco] at h1
  cases h1
  exact h2

/-- Claim C10: a mapper key that is a prefix of no line of the stream
accumulates no group, its entry is skipped without ever validating its
destination, and the whole unmarshal succeeds — returning that entry
untouched even when its destination is of an unsupported shape — provided
the other entries decode their groups successfully.  (A non-empty line whose
prefix matches no key lands in no group, by the grouping characterisation.) -/
theorem C10_unused_key (data : Bytes) (pre post : List (Bytes × UnmarshalV)) (k : Bytes)
    (pre' post' : List (Bytes × UnmarshalV))
    (hk : ∀ l ∈ splitCRLF data, l = [] ∨ List.isPrefixOf k l = false)
    (h1 : unmarshalMapperEntries (buildGroups data) pre = .ok pre')
    (h2 : unmarshalMapperEntries (buildGroups data) post = .ok post') :
    buildGroups data k = none ∧
    unmarshalValue data (.mapper (pre ++ (k, .invalid) :: post)) =
      .ok (.mapper (pre' ++ (k, .invalid) :: post')) := by
  have hfil : (splitCRLF data).filter (fun l => !l.isEmpty && List.isPrefixOf k l) = [] := by
    rw [List.filter_eq_nil_iff]
    intro l hl
    rcases hk l hl with rfl | hp
    · simp
    · simp [hp]
  have hnone : buildGroups data k = none := by
    rw [buildGroups_eq, hfil]
    rfl
  refine ⟨hnone, ?_⟩
  rw [unmarshalValue_mapper,
    unmarshalMapperEntries_append h1 (unmarshalMapperEntries_skip hnone h2)]
  rfl

/-- Witness for C10 at a concrete stream: the line `0A` decodes into the
entry for key `"0"`, the line `1B` matches no key and is ignored, and the
unused key `"2"` keeps its unsupported destination untouched while the call
succeeds. -/
theorem C10_unused_key_witness :
    buildGroups "0A\r\n1B".data "2".data = none ∧
    unmarshalValue "0A\r\n1B".data (.mapper
      [("0".data, .structPtr (specFields [⟨"X".data, 0, 2, .str []⟩])),
        ("2".data, .invalid)]) =
      .ok (.mapper [("0".data, .structPtr [⟨"X".data, mkTag 0 2, .str "0A".data⟩]),
        ("2".data, .invalid)]) := by
  have hval : unmarshalValue "0A".data (.structPtr (specFields [⟨"X".data, 0, 2, .str []⟩])) =
      .ok (.structPtr [⟨"X".data, mkTag 0 2, .str "0A".data⟩]) := by
    rw [show unmarshalValue "0A".data (.structPtr (specFields [⟨"X".data, 0, 2, .str []⟩])) =
        (unmarshalStruct "0A".data (specFields [⟨"X".data, 0, 2, .str []⟩])).map .structPtr
      from by simp [unmarshalValue]]
    rfl
  have hpre : unmarshalMapperEntries (buildGroups "0A\r\n1B".data)
      [("0".data, .structPtr (specFields [⟨"X".data, 0, 2, .str []⟩]))] =
      .ok [("0".data, .structPtr [⟨"X".data, mkTag 0 2, .str "0A".data⟩])] := by
    rw [unmarshalMapperEntries_cons_some
      (show buildGroups "0A\r\n1B".data "0".data = some "0A".data from rfl), hval,
      unmarshalMapperEntries_nil]
    rfl
  have h := C10_unused_key "0A\r\n1B".data
    [("0".data, .structPtr (specFields [⟨"X".data, 0, 2, .str []⟩]))] [] "2".data
    [("0".data, .structPtr [⟨"X".data, mkTag 0 2, .str "0A".data⟩])] []
    (by decide) hpre (unmarshalMapperEntries_nil _)
  simpa using h

end Gocnab
